import Mathlib

/-!
Verification development for the go-jsonpath JSONPath (RFC 9535) engine.

The definitions below are a shallow embedding of the Go sources:

* `internal/ast/ast.go` (the draft that imports `internal/iter`): the IR and
  the evaluator.  Go's lazy pull iterators (`iter.Iterator[A] = func() *A`)
  are modelled strictly: the sequence of elements a fully-consumed iterator
  would yield is a `List`, and a runtime panic (nil-pointer dereference,
  comparison of uncomparable interface values, calling an `unimplemented`
  method, or divergence) is modelled as `Option.none` of the surrounding
  computation.
* `internal/iter` (`iter.go`, `map.go`, `json.go`): `Flatmap`/`Filter`/`Map`
  over the strict lists; `FromMap`, whose iteration order is whatever order
  Go's `range` over the map happens to produce.
* the `ast2` draft package (`Segment.Filter` and its selectors).
* `internal/parser` (the draft importing `internal/parser/grammar`): the
  recursive-descent parser, embedded as explicit state passing over a
  cursor into a list of Unicode scalars.  Mutually recursive productions
  take a fuel argument; every recursive call spends one unit, so any
  theorem quantified over the fuel (or instantiated with enough of it)
  speaks about the Go code's unbounded recursion.

Go `float64` numbers are modelled as a NaN flag plus a rational magnitude:
IEEE equality and order at the granularity used by the engine (NaN compares
unequal/unordered to everything including itself, `+0 = -0`) are captured;
rounding of decimal literals is not needed by any theorem below.
-/

/-- Models a Go `float64` as stored in a JSON `Value`: a NaN flag plus the
finite magnitude. -/
structure GoNum where
  nan : Bool
  val : ℚ
deriving DecidableEq, Repr

/-- JSON values, from `ast.go`:
`float64 | string | nil | true/false | map[string]Value | []Value`.
A Go `map[string]any` is modelled as the association list of its key/value
pairs, listed in the physical order Go's `range` would produce them (real Go
maps have unique keys and an unspecified `range` order). -/
inductive Value where
  | num (n : GoNum)
  | str (s : String)
  | bool (b : Bool)
  | null
  | arr (elems : List Value)
  | obj (entries : List (String × Value))

/-- Go map indexing `m[key]`: the value for `key` (keys of a real Go map are
unique, so first match is the match). -/
def lookupV : List (String × Value) → String → Option Value
  | [], _ => none
  | (k, v) :: rest, key => if k = key then some v else lookupV rest key

/-! ## Go comparison of `any` values (`EQ`, `NE`, `LT`, `LTE`, `GT`, `GTE`)

`EQ` in `ast.go` dispatches on the dynamic type of its first operand and
compares arrays with `slices.Equal` and objects with `maps.Equal`.  Both
stdlib helpers compare the *elements* with Go's interface `==`/`!=`, which
returns `false` when the dynamic types differ but **panics** when both
dynamic types are the same uncomparable type (`[]any` or `map[string]any`).
A panic is modelled as `none`. -/

/-- Go interface equality `x == y` between two `any` JSON values, as used
elementwise inside `slices.Equal` and `maps.Equal`: `false` on kind
mismatch, IEEE/value equality on scalars, and a panic (`none`) when both
sides are arrays or both are objects (uncomparable dynamic types). -/
def goElemEq : Value → Value → Option Bool
  | .num a, .num b => some (!a.nan && !b.nan && a.val == b.val)
  | .str a, .str b => some (a == b)
  | .bool a, .bool b => some (a == b)
  | .null, .null => some true
  | .arr _, .arr _ => none
  | .obj _, .obj _ => none
  | _, _ => some false

/-- The element loop of Go `slices.Equal` (lengths already known equal):
stop with `false` at the first differing pair, propagate a panic. -/
def slicesEqualAux : List Value → List Value → Option Bool
  | [], _ => some true
  | x :: xs, y :: ys =>
    match goElemEq x y with
    | none => none
    | some false => some false
    | some true => slicesEqualAux xs ys
  | _ :: _, [] => none

/-- Go `slices.Equal(v1, v2)` with element type `any`. -/
def slicesEqual (xs ys : List Value) : Option Bool :=
  if xs.length ≠ ys.length then some false else slicesEqualAux xs ys

/-- The entry loop of Go `maps.Equal(m1, m2)`: for each entry of `m1`,
`false` if the key is absent from `m2`, otherwise compare the two values
with interface `!=` (which can panic). -/
def mapsEqualAux : List (String × Value) → List (String × Value) → Option Bool
  | [], _ => some true
  | (k, v) :: rest, fs =>
    match lookupV fs k with
    | none => some false
    | some w =>
      match goElemEq v w with
      | none => none
      | some false => some false
      | some true => mapsEqualAux rest fs

/-- Go `maps.Equal(v1, v2)` with value type `any`. -/
def mapsEqual (es fs : List (String × Value)) : Option Bool :=
  if es.length ≠ fs.length then some false else mapsEqualAux es fs

/-- `EQ` from `ast.go`: type-switch on the first operand; scalars by typed
`==`, arrays by `slices.Equal`, objects by `maps.Equal`, `nil` by comparing
the second operand against `nil`. `none` models the panic raised by
`slices.Equal`/`maps.Equal` on nested uncomparable elements. -/
def valueEQ : Value → Value → Option Bool
  | .num a, v2 => some (match v2 with | .num b => !a.nan && !b.nan && a.val == b.val | _ => false)
  | .str a, v2 => some (match v2 with | .str b => a == b | _ => false)
  | .bool a, v2 => some (match v2 with | .bool b => a == b | _ => false)
  | .arr xs, v2 => match v2 with | .arr ys => slicesEqual xs ys | _ => some false
  | .obj es, v2 => match v2 with | .obj fs => mapsEqual es fs | _ => some false
  | .null, v2 => some (match v2 with | .null => true | _ => false)

/-- `NE` from `ast.go`: `!EQ(v1, v2)` (panics whenever `EQ` panics). -/
def valueNE (v1 v2 : Value) : Option Bool := (valueEQ v1 v2).map (!·)

/-- `LT` from `ast.go`: defined (typed `<`) only when both operands are
numbers or both are strings, `false` otherwise; never panics.  IEEE `<` is
`false` whenever either side is NaN; string `<` is codepoint-lexicographic. -/
def valueLT : Value → Value → Bool
  | .num a, .num b => !a.nan && !b.nan && a.val < b.val
  | .str a, .str b => a < b
  | _, _ => false

/-- `LTE` from `ast.go`: `EQ(v1, v2) || LT(v1, v2)`. -/
def valueLTE (v1 v2 : Value) : Option Bool := (valueEQ v1 v2).map (· || valueLT v1 v2)

/-- `GT` from `ast.go`: `!LTE(v1, v2)`. -/
def valueGT (v1 v2 : Value) : Option Bool := (valueLTE v1 v2).map (!·)

/-- `GTE` from `ast.go`: `!LT(v1, v2)`. -/
def valueGTE (v1 v2 : Value) : Option Bool := some (!valueLT v1 v2)

/-! ## Locations

Locations are strings built with `fmt.Sprintf`; array indices are rendered
with `%d`.  The decimal rendering is implemented with explicit fuel so that
it evaluates inside the kernel. -/

/-- Little-endian decimal digits of `n` (`n ≤ fuel` makes the fuel
irrelevant). -/
def natDigitsRevF : Nat → Nat → List Nat
  | 0, _ => []
  | f + 1, n => if n < 10 then [n] else n % 10 :: natDigitsRevF f (n / 10)

/-- The character for the decimal digit `d`. -/
def digitCh (d : Nat) : Char := Char.ofNat (d + 48)

/-- Decimal rendering of a natural number, as Go `%d` prints it. -/
def natStr (n : Nat) : String := String.mk ((natDigitsRevF (n + 1) n).reverse.map digitCh)

/-- Decimal rendering of an integer, as Go `%d` prints it. -/
def intStr (i : Int) : String := if i < 0 then "-" ++ natStr (-i).toNat else natStr i.toNat

/-- `Node` from `ast.go`: a `Value` together with its `Location`. -/
structure Node where
  location : String
  value : Value

/-- Location of the child of `n` selected by object key `k`:
`fmt.Sprintf("%s[\"%s\"]", n.Location, k)`. -/
def childKeyLoc (loc : String) (k : String) : String := loc ++ "[\"" ++ k ++ "\"]"

/-- Location of the child of `n` selected by array index `i`:
`fmt.Sprintf("%s[%d]", n.Location, i)`. -/
def childIdxLoc (loc : String) (i : Int) : String := loc ++ "[" ++ intStr i ++ "]"

/-! ## Selectors (per input node)

Each `SelectorX.Evaluate` in `ast.go` is `iter.Flatmap(nodes, f)` for a
per-node function `f`; the per-node functions are embedded here and the
flatmap is taken strictly in the evaluator below. -/

/-- Per-node body of `SelectorName.Evaluate`: on an object holding the key,
one child node; otherwise nothing. -/
def selectorNameNodes (name : String) (n : Node) : List Node :=
  match n.value with
  | .obj es =>
    match lookupV es name with
    | some v => [⟨childKeyLoc n.location name, v⟩]
    | none => []
  | _ => []

/-- Per-node body of `SelectorWildcard.Evaluate`: all object pairs (in the
order `iter.FromMap`, i.e. Go's `range`, delivers them) or all array
elements with their indices (via `iter.Enumerate`). -/
def selectorWildcardNodes (n : Node) : List Node :=
  match n.value with
  | .obj es => es.map (fun p => ⟨childKeyLoc n.location p.1, p.2⟩)
  | .arr xs => (xs.enum).map (fun p => ⟨childIdxLoc n.location (p.1 : Int), p.2⟩)
  | _ => []

/-- Per-node body of `SelectorIndex.Evaluate` (and the identical
`SegmentIndex.EvaluateSingle`): negative indices count from the end,
out-of-range produces nothing. -/
def selectorIndexNode (index : Int) (n : Node) : Option Node :=
  match n.value with
  | .arr xs =>
    let i := if index < 0 then index + xs.length else index
    if i < 0 ∨ xs.length ≤ i then none
    else some ⟨childIdxLoc n.location i, xs.getD i.toNat .null⟩
  | _ => none

/-- `normalize` from `SelectorSlice.Evaluate`. -/
def sliceNormalize (i size : Int) : Int := if i < 0 then size + i else i

/-- `bounds` from `SelectorSlice.Evaluate`; returns `(lower, upper)`. -/
def sliceBounds (start end_ step size : Int) : Int × Int :=
  let nStart := sliceNormalize start size
  let nEnd := sliceNormalize end_ size
  if step < 0 then
    (min (max nEnd (-1)) (size - 1), min (max nStart (-1)) (size - 1))
  else
    (min (max nStart 0) size, min (max nEnd 0) size)

/-- The `result` array length computed by `SelectorSlice.Evaluate`:
`span / absStep`, rounded up.  All operands are nonnegative, so Lean's
integer division agrees with Go's. -/
def goSliceSize (lower upper step : Int) : Nat :=
  let span := max upper lower - min upper lower
  let absStep := max step (-step)
  (span / absStep + if span % absStep > 0 then 1 else 0).toNat

/-- The ascending fill loop `for i := lower; i < upper; i += step` of
`SelectorSlice.Evaluate`, collecting the visited indices.  The fuel is the
length Go allocates for `result` (which the loop never overruns). -/
def slicePosIdx : Nat → Int → Int → Int → List Int
  | 0, _, _, _ => []
  | f + 1, i, upper, step => if i < upper then i :: slicePosIdx f (i + step) upper step else []

/-- The descending fill loop `for i := upper; i > lower; i += step` of
`SelectorSlice.Evaluate`. -/
def sliceNegIdx : Nat → Int → Int → Int → List Int
  | 0, _, _, _ => []
  | f + 1, i, lower, step => if i > lower then i :: sliceNegIdx f (i + step) lower step else []

/-- The indices emitted by `SelectorSlice.Evaluate` on an array of length
`size`: defaults by step sign, `bounds`, the `upper < lower` early return,
then the sign-appropriate fill loop. -/
def sliceIndices (start? end? : Option Int) (step : Int) (size : Nat) : List Int :=
  if step = 0 then []
  else
    let start := match start? with
      | some s => s
      | none => if step < 0 then (size : Int) - 1 else 0
    let end_ := match end? with
      | some e => e
      | none => if step < 0 then -(size : Int) - 1 else (size : Int)
    let (lower, upper) := sliceBounds start end_ step size
    if upper < lower then []
    else if step < 0 then sliceNegIdx (goSliceSize lower upper step) upper lower step
    else slicePosIdx (goSliceSize lower upper step) lower upper step

/-- Per-node body of `SelectorSlice.Evaluate`: nothing on non-arrays and on
`step = 0`, otherwise one node per emitted index.  (`v[i]` cannot be out of
range, see `sliceIndices_bounds`; `getD` keeps the definition total.) -/
def selectorSliceNodes (start? end? : Option Int) (step : Int) (n : Node) : List Node :=
  match n.value with
  | .arr xs =>
    (sliceIndices start? end? step xs.length).map
      (fun i => ⟨childIdxLoc n.location i, xs.getD i.toNat .null⟩)
  | _ => []

/-- `SegmentName.EvaluateSingle` from `ast.go` (used inside singular
queries); same selection as `selectorNameNodes` but `Option`-valued. -/
def segmentNameSingle (name : String) (n : Node) : Option Node :=
  match n.value with
  | .obj es =>
    match lookupV es name with
    | some v => some ⟨childKeyLoc n.location name, v⟩
    | none => none
  | _ => none

/-! ## The IR

`Expr` collects the `ast.go` types implementing `Evaluate(iter.Iterator[Node])
iter.Iterator[Node]`; `ExprS` collects the types implementing
`EvaluateSingle(Node) *Node`.  The `F func(Value, Value) bool` field of
`ExprComparison` is one of the six comparison operators (the parser supplies
nothing else), kept as a tag. -/

/-- The six comparison operators wired in by `Parser.comparisonOp`. -/
inductive CmpOp where
  | eq | ne | lt | lte | gt | gte

/-- Application of an operator tag, i.e. calling the stored `F`. -/
def cmpApply : CmpOp → Value → Value → Option Bool
  | .eq, a, b => valueEQ a b
  | .ne, a, b => valueNE a b
  | .lt, a, b => some (valueLT a b)
  | .lte, a, b => valueLTE a b
  | .gt, a, b => valueGT a b
  | .gte, a, b => valueGTE a b

/-- `ast.go` types implementing `ExprSingle`.  `funcSingle` stands for any of
the five `Func*` types in `EvaluateSingle` position: each of those methods is
`panic("unimplemented")`. -/
inductive ExprS where
  | literal (v : Value)
  | segmentName (name : String)
  | segmentIndex (index : Int)
  | querySingularRel (segments : List ExprS)
  | querySingularAbs (segments : List ExprS)
  | funcSingle

/-- `ast.go` types implementing `Expr`.  The `func*` constructors carry only
what the parser stores (`FuncMatch`/`FuncSearch` hold the compiled regex,
kept as its source pattern; `FuncLength`/`FuncCount`/`FuncValue` hold their
argument); all five `Evaluate` methods are `panic("unimplemented")`. -/
inductive Expr where
  | queryJSONPath (segments : List Expr)
  | segmentChild (selectors : List Expr)
  | segmentDescendant (selectors : List Expr)
  | selectorName (name : String)
  | selectorWildcard
  | selectorSlice (start? end? : Option Int) (step : Int)
  | selectorIndex (index : Int)
  | selectorFilter (e : Expr)
  | exprLogicalOr (exprs : List Expr)
  | exprLogicalAnd (exprs : List Expr)
  | exprLogicalNot (e : Expr)
  | exprParen (e : Expr)
  | exprComparison (left right : ExprS) (op : CmpOp)
  | literalE (v : Value)
  | queryRel (segments : List Expr)
  | funcLength (arg : Expr)
  | funcCount (arg : Expr)
  | funcMatch (regex : String)
  | funcSearch (regex : String)
  | funcValue (e : Expr)

/-! ## `EvaluateSingle` -/

mutual

/-- `EvaluateSingle` dispatch.  Outer `none` is a panic; `some none` is Go's
`nil` result (the singular query produced Nothing).
* `Literal.EvaluateSingle` returns `&Node{Location: n.Location, Value: l.Value}`.
* `SegmentName.EvaluateSingle` / `SegmentIndex.EvaluateSingle` select a child.
* `QuerySingularRel.EvaluateSingle` and `QuerySingularAbs.EvaluateSingle`
  both start from the *given* node (`result := &n`) and walk the segments,
  returning `nil` as soon as a step does.
* the `Func*.EvaluateSingle` methods are `panic("unimplemented")`. -/
def evalSingle : ExprS → Node → Option (Option Node)
  | .literal v, n => some (some ⟨n.location, v⟩)
  | .segmentName name, n => some (segmentNameSingle name n)
  | .segmentIndex i, n => some (selectorIndexNode i n)
  | .querySingularRel segs, n => evalSingleSegs segs n
  | .querySingularAbs segs, n => evalSingleSegs segs n
  | .funcSingle, _ => none

/-- The segment walk of `QuerySingular{Rel,Abs}.EvaluateSingle`. -/
def evalSingleSegs : List ExprS → Node → Option (Option Node)
  | [], n => some (some n)
  | s :: rest, n =>
    match evalSingle s n with
    | none => none
    | some none => some none
    | some (some m) => evalSingleSegs rest m

end

/-! ## `Evaluate`

`iter.Filter(nodes, pred)` over a strict list, with a panicking predicate
panicking the whole (fully consumed) sequence. -/

/-- Strict `iter.Filter` with a predicate that may panic. -/
def filterMNodes (p : Node → Option Bool) : List Node → Option (List Node)
  | [] => some []
  | n :: rest =>
    match p n with
    | none => none
    | some b =>
      match filterMNodes p rest with
      | none => none
      | some r => some (if b then n :: r else r)

mutual

/-- Whether *calling* `e.Evaluate(...)` panics before returning an iterator:
the five `Func*.Evaluate` methods panic immediately, and the query/segment
types call `s.Evaluate` on each member while building their pipeline.  Every
other implementation just wraps its input in an `iter` combinator. -/
def constructPanics : Expr → Bool
  | .queryJSONPath segs => constructPanicsList segs
  | .segmentChild sels => constructPanicsList sels
  | .segmentDescendant sels => constructPanicsList sels
  | .queryRel segs => constructPanicsList segs
  | .funcLength _ => true
  | .funcCount _ => true
  | .funcMatch _ => true
  | .funcSearch _ => true
  | .funcValue _ => true
  | _ => false

def constructPanicsList : List Expr → Bool
  | [] => false
  | e :: rest => constructPanics e || constructPanicsList rest

end

/-- The predicate closure of `ExprComparison.Evaluate`:
`left := e.Left.EvaluateSingle(n); right := e.Right.EvaluateSingle(n);
return e.F(left.Value, right.Value)`.  When either `EvaluateSingle` returns
`nil`, the field access `left.Value`/`right.Value` dereferences a nil
pointer — a panic, i.e. `none`. -/
def cmpPred (left right : ExprS) (op : CmpOp) (n : Node) : Option Bool :=
  match evalSingle left n with
  | none => none
  | some lp =>
    match evalSingle right n with
    | none => none
    | some rp =>
      match lp, rp with
      | some l, some r => cmpApply op l.value r.value
      | _, _ => none

/-! ## Descendant traversal

`SegmentDescendant.Evaluate` flatmaps `FromJSON(n.Value)` over its input.
`ast.FromJSON` (package `ast`) is declared by this call and exercised by
`TestFromJSON`, but its definition is not among the sources. -/

mutual

/-- Modelled from the spec: the missing `ast.FromJSON` — "For each input
node, first produce the complete pre-order traversal of its subtree
(including the node itself), yielding one node per visited value with its
normalized location", arrays in ascending index order, objects in insertion
order.  The source call site passes `n.Value`; the model supplies `n`'s
location as the base so that the produced locations are the normalized
locations the spec requires. -/
def preorderV (loc : String) (v : Value) : List Node :=
  ⟨loc, v⟩ ::
    (match v with
     | .arr xs => preorderArr loc 0 xs
     | .obj es => preorderObj loc es
     | _ => [])

def preorderArr (loc : String) (i : Nat) : List Value → List Node
  | [] => []
  | x :: xs => preorderV (childIdxLoc loc (i : Int)) x ++ preorderArr loc (i + 1) xs

def preorderObj (loc : String) : List (String × Value) → List Node
  | [] => []
  | (k, x) :: es => preorderV (childKeyLoc loc k) x ++ preorderObj loc es

end

/-- `FromJSON` applied to an input node of the descendant segment. -/
def fromJSONNode (n : Node) : List Node := preorderV n.location n.value

mutual

/-- `Evaluate` dispatch over a strict input sequence; `none` models a panic
while fully consuming the output.
* `QueryJSONPath.Evaluate`, `QueryRel.Evaluate` and `SegmentChild.Evaluate`
  all fold their members over the sequence (`output = s.Evaluate(output)`).
* `SegmentDescendant.Evaluate` first flatmaps `FromJSON`, then folds its
  selectors the same way.
* the four selectors flatmap their per-node bodies.
* `SelectorFilter.Evaluate` keeps `n` iff `s.Expr.Evaluate(Singleton(n))()`
  is non-nil, i.e. pulls the first element.
* `ExprLogicalOr.Evaluate` / `ExprLogicalAnd.Evaluate` filter with a
  predicate that only *constructs* `e.Evaluate(Singleton(n))` and compares
  the returned closure against `nil` — see `orPred`/`andPred`.
* `ExprLogicalNot.Evaluate` filters on `e.Expr.Evaluate(Singleton(n))() == nil`.
* `ExprParen.Evaluate` flatmaps `e.Evaluate(Singleton(n))` — `e` is the
  `ExprParen` itself, so pulling recurses forever: panic unless the input
  is empty (flatmap over an empty sequence never calls its body).
* `ExprComparison.Evaluate` filters with `cmpPred`.
* `Literal.Evaluate` flatmaps `Literal.EvaluateSingle`.
* the `Func*.Evaluate` methods are `panic("unimplemented")`. -/
def evalExpr : Expr → List Node → Option (List Node)
  | .queryJSONPath segs, input => evalFold segs input
  | .segmentChild sels, input => evalFold sels input
  | .segmentDescendant sels, input => evalFold sels (input.flatMap fromJSONNode)
  | .selectorName name, input => some (input.flatMap (selectorNameNodes name))
  | .selectorWildcard, input => some (input.flatMap selectorWildcardNodes)
  | .selectorSlice s e st, input => some (input.flatMap (selectorSliceNodes s e st))
  | .selectorIndex i, input => some (input.flatMap (fun n => (selectorIndexNode i n).toList))
  | .selectorFilter e, input =>
    filterMNodes (fun n => (evalExpr e [n]).map (fun l => !l.isEmpty)) input
  | .exprLogicalOr es, input => filterMNodes (orPred es) input
  | .exprLogicalAnd es, input => filterMNodes (andPred es) input
  | .exprLogicalNot e, input =>
    filterMNodes (fun n => (evalExpr e [n]).map (fun l => l.isEmpty)) input
  | .exprParen _, input => if input.isEmpty then some [] else none
  | .exprComparison l r op, input => filterMNodes (cmpPred l r op) input
  | .literalE v, input => some (input.map (fun n => ⟨n.location, v⟩))
  | .queryRel segs, input => evalFold segs input
  | .funcLength _, _ => none
  | .funcCount _, _ => none
  | .funcMatch _, _ => none
  | .funcSearch _, _ => none
  | .funcValue _, _ => none

/-- The `for _, s := range segments { output = s.Evaluate(output) }` fold. -/
def evalFold : List Expr → List Node → Option (List Node)
  | [], input => some input
  | e :: rest, input =>
    match evalExpr e input with
    | none => none
    | some out => evalFold rest out

/-- The predicate closure of `ExprLogicalOr.Evaluate`: for each disjunct,
`result := e.Evaluate(iter.Singleton(n)); if result != nil { return true }`.
Constructing the iterator panics for the `Func*` types; any other
construction returns a non-nil closure, so the comparison against `nil`
succeeds immediately — nothing is ever pulled from `result`. -/
def orPred : List Expr → Node → Option Bool
  | [], _ => some false
  | e :: _, _ => if constructPanics e then none else some true

/-- The predicate closure of `ExprLogicalAnd.Evaluate`: for each conjunct,
`if result := e.Evaluate(iter.Singleton(n)); result == nil { return false }`;
the closure is never nil, so the loop only ever falls through to `true`
(or panics constructing a `Func*`). -/
def andPred : List Expr → Node → Option Bool
  | [], _ => some true
  | e :: rest, n => if constructPanics e then none else andPred rest n

end

/-! ## The `ast2` draft (`Segment.Filter` and its selectors)

The `ast2` package gives `Segment` a list of `Selector`s and applies each
selector to each input node separately, concatenating in selector order
within each node.  Its `Select` bodies for name/wildcard/slice/index are
textually the same as the `ast.go` `Evaluate` bodies, so the per-node
functions above are reused.  Its `LogicExpr` trees (`LogicExprNot`,
`LogicExprOr`, `LogicExprAnd`) evaluate a node to a `bool`. -/

/-- `ast2.LogicExpr` implementors from the sources. -/
inductive Logic2 where
  | notE (e : Logic2)
  | orE (es : List Logic2)
  | andE (es : List Logic2)

mutual

/-- `ast2` `LogicExpr*.Evaluate(Node) bool`. -/
def logic2Eval : Logic2 → Node → Bool
  | .notE e, n => !logic2Eval e n
  | .orE es, n => logic2Any es n
  | .andE es, n => logic2All es n

def logic2Any : List Logic2 → Node → Bool
  | [], _ => false
  | e :: rest, n => logic2Eval e n || logic2Any rest n

def logic2All : List Logic2 → Node → Bool
  | [], _ => true
  | e :: rest, n => logic2Eval e n && logic2All rest n

end

/-- `ast2.Selector` implementors. -/
inductive Sel2 where
  | name (k : String)
  | wildcard
  | slice (start? end? : Option Int) (step : Int)
  | index (i : Int)
  | filter (l : Logic2)

/-- `ast2` `Selector.Select` on a strict sequence. -/
def sel2Select : Sel2 → List Node → List Node
  | .name k, nodes => nodes.flatMap (selectorNameNodes k)
  | .wildcard, nodes => nodes.flatMap selectorWildcardNodes
  | .slice s e st, nodes => nodes.flatMap (selectorSliceNodes s e st)
  | .index i, nodes => nodes.flatMap (fun n => (selectorIndexNode i n).toList)
  | .filter l, nodes => nodes.filter (logic2Eval l)

/-- `ast2.Segment.Filter`: flatmap over the input nodes; for each node,
flatmap over the selectors, applying each selector to the singleton of that
same node. -/
def segment2Filter (sels : List Sel2) (nodes : List Node) : List Node :=
  nodes.flatMap (fun n => sels.flatMap (fun s => sel2Select s [n]))

/-! ## Claim theorems: C1, C2, C3, C6 (and helper lemmas) -/

/-- Short-hands used by the concrete instances below. -/
def vnum (q : ℚ) : Value := .num ⟨false, q⟩

/-- Claim C1 (code bug exhibit): evaluation does raise a runtime error on a
comparison whose singular-query operand resolves to Nothing.  With the
current node bound to the empty object, the singular query `@.a` yields
Nothing — `QuerySingularRel.EvaluateSingle` correctly returns `nil` — but
`ExprComparison.Evaluate` then reads `left.Value` from that nil pointer, a
panic, instead of evaluating the comparison `@.a == 1` to a boolean. -/
theorem c1_comparison_nothing_panics :
    evalSingle (.querySingularRel [.segmentName "a"]) ⟨"$", .obj []⟩ = some none ∧
    cmpPred (.querySingularRel [.segmentName "a"]) (.literal (vnum 1)) .eq ⟨"$", .obj []⟩
      = none := by
  constructor <;> rfl

/-- Claim C2 (code bug exhibit): on the child segment `[0, 0]` applied to the
root node of `[5]`, `SegmentChild.Evaluate` pipes the second selector over
the first selector's output and produces nothing, while the `ast2`
`Segment.Filter` (and the claim) produce the element twice — the
concatenation, for the single input node, of each selector's result on that
node. -/
theorem c2_child_segment_pipes_selectors :
    evalExpr (.segmentChild [.selectorIndex 0, .selectorIndex 0]) [⟨"$", .arr [vnum 5]⟩]
      = some [] ∧
    segment2Filter [.index 0, .index 0] [⟨"$", .arr [vnum 5]⟩]
      = [⟨"$[0]", vnum 5⟩, ⟨"$[0]", vnum 5⟩] := by
  constructor <;> rfl

/-- Claim C3 (code bug exhibit): the filter `$[?@.a]` over the document
`[{}]`.  The test query `@.a` produces no nodes on the root (first
conjunct), so by the claim the lone disjunct is false and the filter must
select nothing; but `ExprLogicalOr.Evaluate` compares the conjunction's
freshly constructed iterator closure against `nil` instead of pulling from
it, so its predicate is true and the filter keeps the node (second and
third conjuncts). -/
theorem c3_or_and_never_pull :
    evalExpr (.queryRel [.segmentChild [.selectorName "a"]]) [⟨"$", .arr [.obj []]⟩]
      = some [] ∧
    orPred [.exprLogicalAnd [.queryRel [.segmentChild [.selectorName "a"]]]]
        ⟨"$", .arr [.obj []]⟩ = some true ∧
    evalExpr
        (.queryJSONPath [.segmentChild [.exprLogicalOr
          [.exprLogicalAnd [.queryRel [.segmentChild [.selectorName "a"]]]]]])
        [⟨"$", .arr [.obj []]⟩]
      = some [⟨"$", .arr [.obj []]⟩] := by
  refine ⟨rfl, rfl, rfl⟩

/-- Claim C6 counterexample: `==` is not reflexive.  On `[[]]` (an array
whose element is a nested array) `EQ` panics — `slices.Equal` compares the
two nested arrays as interface values of the same uncomparable dynamic
type — rather than finding the value equal to itself; and on a NaN number
`EQ` returns false, since numbers compare by IEEE equality. -/
theorem c6_eq_reflexivity_counterexample :
    valueEQ (.arr [.arr []]) (.arr [.arr []]) = none ∧
    valueEQ (.num ⟨true, 0⟩) (.num ⟨true, 0⟩) = some false := by
  constructor <;> rfl

/-- Whether a value is a scalar (not an array/object) and not a NaN number:
the elements for which Go's interface `==` compares without panicking and
reflexively. -/
def scalarNonNaN : Value → Bool
  | .num n => !n.nan
  | .str _ => true
  | .bool _ => true
  | .null => true
  | .arr _ => false
  | .obj _ => false

/-- Whether the keys of an association list are pairwise distinct (as the
keys of a real Go map always are). -/
def keysNodup : List (String × Value) → Bool
  | [] => true
  | (k, _) :: rest => !(rest.any (fun p => p.1 == k)) && keysNodup rest

/-- Values on which `EQ`'s self-comparison completes and returns true:
scalars other than NaN, and arrays/objects all of whose members are
scalars other than NaN (nested containers make `EQ` panic, NaN members
make it false). -/
def reflSafe : Value → Bool
  | .num n => !n.nan
  | .str _ => true
  | .bool _ => true
  | .null => true
  | .arr xs => xs.all scalarNonNaN
  | .obj es => es.all (fun p => scalarNonNaN p.2) && keysNodup es

theorem goElemEq_refl {v : Value} (h : scalarNonNaN v = true) : goElemEq v v = some true := by
  cases v <;> simp_all [scalarNonNaN, goElemEq]

theorem lookupV_self {es : List (String × Value)} {k : String} {v : Value}
    (hnd : keysNodup es = true) (hmem : (k, v) ∈ es) : lookupV es k = some v := by
  induction es with
  | nil => cases hmem
  | cons p rest ih =>
    obtain ⟨k', v'⟩ := p
    simp only [keysNodup, Bool.and_eq_true, Bool.not_eq_true'] at hnd
    rcases List.mem_cons.mp hmem with h | h
    · cases h
      simp [lookupV]
    · have hne : k' ≠ k := by
        intro he
        subst he
        have : rest.any (fun p => p.1 == k') = true :=
          List.any_eq_true.mpr ⟨(k', v), h, by simp⟩
        simp [this] at hnd
      simp only [lookupV, if_neg hne]
      exact ih hnd.2 h

theorem mapsEqualAux_refl {es fs : List (String × Value)}
    (hsc : ∀ p ∈ es, scalarNonNaN p.2 = true)
    (hlk : ∀ k v, (k, v) ∈ es → lookupV fs k = some v) :
    mapsEqualAux es fs = some true := by
  induction es with
  | nil => rfl
  | cons p rest ih =>
    obtain ⟨k, v⟩ := p
    have h1 : lookupV fs k = some v := hlk k v (List.mem_cons_self _ _)
    have h2 : goElemEq v v = some true := goElemEq_refl (hsc (k, v) (List.mem_cons_self _ _))
    simp only [mapsEqualAux, h1, h2]
    exact ih (fun q hq => hsc q (List.mem_cons_of_mem _ hq))
      (fun k' v' hm => hlk k' v' (List.mem_cons_of_mem _ hm))

theorem slicesEqualAux_refl {xs : List Value} (h : ∀ v ∈ xs, scalarNonNaN v = true) :
    slicesEqualAux xs xs = some true := by
  induction xs with
  | nil => rfl
  | cons x rest ih =>
    have h1 : goElemEq x x = some true := goElemEq_refl (h x (List.mem_cons_self _ _))
    simp only [slicesEqualAux, h1]
    exact ih (fun v hv => h v (List.mem_cons_of_mem _ hv))

/-- Claim C6, amended: `==` is reflexive for every Value whose array
elements and object member values are non-NaN scalars (on nested arrays or
objects the comparison panics through Go's interface equality, and NaN
numbers are unequal to themselves by IEEE equality), and `!=` is the exact
negation of `==` whenever `==` completes (and panics exactly when `==`
panics). -/
theorem c6_eq_refl_amended (v : Value) (h : reflSafe v = true) :
    valueEQ v v = some true ∧ ∀ a b : Value, valueNE a b = (valueEQ a b).map (!·) := by
  refine ⟨?_, fun a b => rfl⟩
  cases v with
  | num n => simp_all [reflSafe, valueEQ]
  | str s => simp [valueEQ]
  | bool b => simp [valueEQ]
  | null => rfl
  | arr xs =>
    simp only [reflSafe, List.all_eq_true] at h
    simp only [valueEQ, slicesEqual, ne_eq, not_true_eq_false, if_neg, if_false]
    simpa using slicesEqualAux_refl h
  | obj es =>
    simp only [reflSafe, Bool.and_eq_true, List.all_eq_true] at h
    simp only [valueEQ, mapsEqual, ne_eq, not_true_eq_false, if_neg, if_false]
    exact mapsEqualAux_refl h.1 (fun k v hm => lookupV_self h.2 hm)

/-- Witness for `c6_eq_refl_amended` at a concrete flat value. -/
theorem c6_eq_refl_amended_witness :
    valueEQ (.obj [("a", vnum 1), ("b", .str "x")]) (.obj [("a", vnum 1), ("b", .str "x")])
      = some true :=
  (c6_eq_refl_amended (.obj [("a", vnum 1), ("b", .str "x")]) (by rfl)).1

/-! ## Claim C7: descendant segments -/

/-- The node selected from a visited node by object key `x`, if its value is
an object holding `x` — the claim's "value whose parent is an object with
key `x`". -/
def keyedChild (x : String) (m : Node) : Option Node :=
  match m.value with
  | .obj es => (lookupV es x).map (fun v => ⟨childKeyLoc m.location x, v⟩)
  | _ => none

theorem selectorNameNodes_eq_toList (x : String) (m : Node) :
    selectorNameNodes x m = (keyedChild x m).toList := by
  cases m with
  | mk loc v =>
    cases v <;> simp only [selectorNameNodes, keyedChild] <;> try rfl
    rename_i es
    cases lookupV es x <;> rfl

theorem flatMap_toList {α β : Type} (g : α → Option β) (l : List α) :
    l.flatMap (fun a => (g a).toList) = l.filterMap g := by
  induction l with
  | nil => rfl
  | cons a rest ih =>
    cases h : g a <;> simp [List.flatMap_cons, h, ih, List.filterMap_cons]

theorem preorderArr_eq (loc : String) (xs : List Value) (i : Nat) :
    preorderArr loc i xs
      = (xs.enumFrom i).flatMap (fun p => preorderV (childIdxLoc loc (p.1 : Int)) p.2) := by
  induction xs generalizing i with
  | nil => rfl
  | cons x rest ih => simp [preorderArr, List.enumFrom_cons, List.flatMap_cons, ih]

theorem preorderObj_eq (loc : String) (es : List (String × Value)) :
    preorderObj loc es = es.flatMap (fun p => preorderV (childKeyLoc loc p.1) p.2) := by
  induction es with
  | nil => rfl
  | cons p rest ih =>
    obtain ⟨k, v⟩ := p
    simp [preorderObj, List.flatMap_cons, ih]

theorem fromJSONNode_unfold (n : Node) :
    fromJSONNode n = n :: (selectorWildcardNodes n).flatMap fromJSONNode := by
  cases n with
  | mk loc v =>
    cases v with
    | arr xs =>
      simp only [fromJSONNode, preorderV, selectorWildcardNodes, List.enum]
      rw [preorderArr_eq, List.flatMap_map]
      rfl
    | obj es =>
      simp only [fromJSONNode, preorderV, selectorWildcardNodes]
      rw [preorderObj_eq, List.flatMap_map]
      rfl
    | num q => rfl
    | str s => rfl
    | bool b => rfl
    | null => rfl

/-- Claim C7: a descendant segment first produces the complete pre-order
traversal of each input node's subtree — the node itself followed by the
traversals of its children, which are exactly the wildcard-selector
children: array elements in ascending index order, object members in the
order the object carries them, scalars none — and `..x` (a descendant
segment with the single name selector `x`) therefore yields, per input
node, every value whose parent is an object with key `x`, in pre-order
discovery order.  (`FromJSON` is modelled from the spec; its definition is
absent from the sources.) -/
theorem c7_descendant_preorder (x : String) (input : List Node) :
    (∀ n : Node, fromJSONNode n = n :: (selectorWildcardNodes n).flatMap fromJSONNode) ∧
    evalExpr (.segmentDescendant [.selectorName x]) input
      = some (input.flatMap (fun n => (fromJSONNode n).filterMap (keyedChild x))) := by
  refine ⟨fromJSONNode_unfold, ?_⟩
  have h1 : evalExpr (.segmentDescendant [.selectorName x]) input
      = some ((input.flatMap fromJSONNode).flatMap (selectorNameNodes x)) := rfl
  rw [h1, List.flatMap_assoc]
  have hpt : ∀ m : List Node, m.flatMap (selectorNameNodes x) = m.filterMap (keyedChild x) := by
    intro m
    rw [funext (selectorNameNodes_eq_toList x), flatMap_toList]
  simp only [hpt]

/-! ## Claim C4: object iteration order

`iter.FromMap` snapshots the pairs of a `map[string]any` by `for k, v :=
range m`.  The Go specification leaves the `range` order over a map
unspecified (and the runtime deliberately randomizes it), so any
permutation of the entries is a legal outcome of one `FromMap` call, and
two calls over the same map — e.g. the two evaluations of one IR, or two
wildcard visits to the same object within one evaluation — may deliver
different permutations.  The model carries the delivered order in the
association list of `Value.obj`. -/

/-- Claim C4 (code bug exhibit): two legal `range` orders of the same
two-entry object (the entry lists are permutations of each other, keys
unique) make the wildcard selector emit different node sequences.  The
output therefore depends on Go's unspecified map iteration order, so
evaluating one IR twice need not produce equal node sequences, no
insertion order is tracked, and repeat iteration within one evaluation is
not stable — all contradicting the claim. -/
theorem c4_wildcard_order_dependent :
    [("a", vnum 1), ("b", vnum 2)].Perm [("b", vnum 2), ("a", vnum 1)] ∧
    selectorWildcardNodes ⟨"$", .obj [("a", vnum 1), ("b", vnum 2)]⟩
      ≠ selectorWildcardNodes ⟨"$", .obj [("b", vnum 2), ("a", vnum 1)]⟩ := by
  constructor
  · exact List.Perm.swap _ _ _
  · intro h
    exact absurd (congrArg (List.map Node.location) h) (by decide)

/-! ## Claim C5: slice selection

Claim-side definitions, written from the claim's wording: defaults by step
sign, normalization of negative explicit bounds, clamping, and the two
unbounded while-loops.  They are then proved equal to the code's
`sliceIndices` (which precomputes the allocation size and fills). -/

/-- The claim's "emit indices lower, lower+step, … while < upper"
(`step > 0`), as an unbounded loop. -/
def specWhileLt (i upper step : Int) (h : 0 < step) : List Int :=
  if i < upper then i :: specWhileLt (i + step) upper step h else []
termination_by (upper - i).toNat
decreasing_by omega

/-- The claim's "emit upper, upper+step, … while > lower" (`step < 0`), as
an unbounded loop. -/
def specWhileGt (i lower step : Int) (h : step < 0) : List Int :=
  if i > lower then i :: specWhileGt (i + step) lower step h else []
termination_by (i - lower).toNat
decreasing_by omega

/-- The indices of the claim's slice description: omitted bounds default to
`0`/`N` for positive step and `N-1`/`-N-1` for negative step; a negative
explicit bound `b` becomes `N+b`; bounds clamp to `[0,N]` (positive) or
`[-1,N-1]` (negative); then the sign-appropriate while-loop, starting from
`lower` (positive step) or from the clamped start, called `upper`
(negative step); `step = 0` emits nothing. -/
def specSliceIndices (start? end? : Option Int) (step : Int) (N : Nat) : List Int :=
  if h0 : step = 0 then []
  else
    let start := match start? with
      | some s => if s < 0 then (N : Int) + s else s
      | none => if step < 0 then (N : Int) - 1 else 0
    let end_ := match end? with
      | some e => if e < 0 then (N : Int) + e else e
      | none => if step < 0 then -(N : Int) - 1 else (N : Int)
    if hneg : step < 0 then
      specWhileGt (min (max start (-1)) ((N : Int) - 1)) (min (max end_ (-1)) ((N : Int) - 1))
        step hneg
    else
      specWhileLt (min (max start 0) (N : Int)) (min (max end_ 0) (N : Int)) step
        (by omega)

theorem slicePosIdx_take (f : Nat) (i upper step : Int) (h : 0 < step) :
    slicePosIdx f i upper step = (specWhileLt i upper step h).take f := by
  induction f generalizing i with
  | zero => simp [slicePosIdx]
  | succ f ih =>
    rw [slicePosIdx, specWhileLt]
    by_cases hlt : i < upper
    · simp only [if_pos hlt, List.take_succ_cons, ih]
    · simp [if_neg hlt]

theorem sliceNegIdx_take (f : Nat) (i lower step : Int) (h : step < 0) :
    sliceNegIdx f i lower step = (specWhileGt i lower step h).take f := by
  induction f generalizing i with
  | zero => simp [sliceNegIdx]
  | succ f ih =>
    rw [sliceNegIdx, specWhileGt]
    by_cases hgt : i > lower
    · simp only [if_pos hgt, gt_iff_lt, List.take_succ_cons, ih]
    · simp [if_neg hgt]

theorem specWhileLt_len (i upper step : Int) (h : 0 < step) :
    step * (specWhileLt i upper step h).length ≤ max (upper - i) 0 + (step - 1) := by
  rw [specWhileLt]
  by_cases hlt : i < upper
  · simp only [if_pos hlt, List.length_cons]
    by_cases h2 : i + step < upper
    · have ih := specWhileLt_len (i + step) upper step h
      rw [Nat.cast_add, Nat.cast_one, mul_add, mul_one]
      omega
    · rw [specWhileLt, if_neg h2]
      simp only [List.length_nil, Nat.cast_zero, Nat.cast_one]
      omega
  · simp only [if_neg hlt, List.length_nil, mul_zero]
    omega
termination_by (upper - i).toNat
decreasing_by omega

theorem specWhileGt_len (i lower step : Int) (h : step < 0) :
    (-step) * (specWhileGt i lower step h).length ≤ max (i - lower) 0 + (-step - 1) := by
  rw [specWhileGt]
  by_cases hgt : i > lower
  · simp only [if_pos hgt, List.length_cons]
    by_cases h2 : i + step > lower
    · have ih := specWhileGt_len (i + step) lower step h
      rw [Nat.cast_add, Nat.cast_one, mul_add, mul_one]
      omega
    · rw [specWhileGt, if_neg h2]
      simp only [List.length_nil, Nat.cast_zero, Nat.cast_one]
      omega
  · simp only [if_neg hgt, List.length_nil, mul_zero]
    omega
termination_by (i - lower).toNat
decreasing_by omega

theorem le_ceil_size (span step L : Int) (hstep : 0 < step)
    (hL : step * L ≤ span + step - 1) :
    L ≤ span / step + (if span % step > 0 then 1 else 0) := by
  have hq := Int.ediv_add_emod span step
  have hr0 : 0 ≤ span % step := Int.emod_nonneg span (by omega)
  have hrs : span % step < step := Int.emod_lt_of_pos span hstep
  set q := span / step with hqdef
  set r := span % step with hrdef
  by_cases hr : r > 0
  · have hlt : step * L < step * (q + 2) := by nlinarith
    have : L < q + 2 := lt_of_mul_lt_mul_left hlt (by omega)
    simp only [if_pos hr]
    omega
  · have hlt : step * L < step * (q + 1) := by nlinarith
    have : L < q + 1 := lt_of_mul_lt_mul_left hlt (by omega)
    simp only [if_neg hr]
    omega

theorem specWhileLt_len_le_size (lower upper step : Int) (h : 0 < step) (hle : lower ≤ upper) :
    (specWhileLt lower upper step h).length ≤ goSliceSize lower upper step := by
  have hb := specWhileLt_len lower upper step h
  have habs : max step (-step) = step := by omega
  have hspan : max upper lower - min upper lower = upper - lower := by omega
  have hceil := le_ceil_size (upper - lower) step ((specWhileLt lower upper step h).length : Int)
    h (by omega)
  simp only [goSliceSize, habs, hspan]
  omega

theorem specWhileGt_len_le_size (lower upper step : Int) (h : step < 0) (hle : lower ≤ upper) :
    (specWhileGt upper lower step h).length ≤ goSliceSize lower upper step := by
  have hb := specWhileGt_len upper lower step h
  have habs : max step (-step) = -step := by omega
  have hspan : max upper lower - min upper lower = upper - lower := by omega
  have hceil := le_ceil_size (upper - lower) (-step) ((specWhileGt upper lower step h).length : Int)
    (by omega) (by omega)
  simp only [goSliceSize, habs, hspan]
  omega

theorem slicePos_run (lower upper step : Int) (h : 0 < step) :
    (if upper < lower then [] else slicePosIdx (goSliceSize lower upper step) lower upper step)
      = specWhileLt lower upper step h := by
  by_cases hlt : upper < lower
  · rw [if_pos hlt, specWhileLt, if_neg (by omega)]
  · rw [if_neg hlt, slicePosIdx_take _ _ _ _ h]
    exact List.take_of_length_le (specWhileLt_len_le_size lower upper step h (by omega))

theorem sliceNeg_run (lower upper step : Int) (h : step < 0) :
    (if upper < lower then [] else sliceNegIdx (goSliceSize lower upper step) upper lower step)
      = specWhileGt upper lower step h := by
  by_cases hlt : upper < lower
  · rw [if_pos hlt, specWhileGt, if_neg (by omega)]
  · rw [if_neg hlt, sliceNegIdx_take _ _ _ _ h]
    exact List.take_of_length_le (specWhileGt_len_le_size lower upper step h (by omega))

theorem sliceIndices_eq_spec (s? e? : Option Int) (st : Int) (N : Nat) :
    sliceIndices s? e? st N = specSliceIndices s? e? st N := by
  by_cases h0 : st = 0
  · simp [sliceIndices, specSliceIndices, h0]
  have keyNeg : ∀ h : st < 0, ∀ u l : Int,
      (if u < l then ([] : List Int) else sliceNegIdx (goSliceSize l u st) u l st)
        = specWhileGt u l st h := fun h u l => sliceNeg_run l u st h
  have keyPos : ∀ h : 0 < st, ∀ u l : Int,
      (if u < l then ([] : List Int) else slicePosIdx (goSliceSize l u st) l u st)
        = specWhileLt l u st h := fun h u l => slicePos_run l u st h
  by_cases hneg : st < 0
  · cases s? <;> cases e? <;>
      simp only [sliceIndices, specSliceIndices, sliceBounds, sliceNormalize, h0, hneg,
        if_true, if_false, ite_true, ite_false, dite_false] <;>
      rw [dif_pos trivial, keyNeg hneg] <;>
      congr 1 <;> (try simp only [sup_eq_max, inf_eq_min]) <;> (try split_ifs) <;> omega
  · have hpos : 0 < st := by omega
    cases s? <;> cases e? <;>
      simp only [sliceIndices, specSliceIndices, sliceBounds, sliceNormalize, h0, hneg,
        if_true, if_false, ite_true, ite_false, dite_false] <;>
      rw [keyPos hpos] <;>
      congr 1 <;> (try simp only [sup_eq_max, inf_eq_min]) <;> (try split_ifs) <;> omega

theorem specWhileGt_countdown (N : Nat) (f : Int → Node) :
    (specWhileGt ((N : Int) - 1) (-1) (-1) (by omega)).map f
      = ((List.range N).reverse).map (fun j : Nat => f (j : Int)) := by
  induction N with
  | zero => rw [specWhileGt]; simp
  | succ k ih =>
    rw [specWhileGt]
    have h1 : ((k + 1 : Nat) : Int) - 1 = (k : Int) := by push_cast; ring
    have h2 : ((k : Int)) + (-1) = (k : Int) - 1 := by ring
    rw [if_pos (by omega)]
    rw [h1, h2, List.map_cons, ih]
    simp [List.range_succ]

/-- Claim C5: for every array length and slice parameters, the indices the
code emits are exactly those of the claim's description (`specSliceIndices`:
defaults by step sign, `N+b` normalization of negative explicit bounds,
clamping to `[0,N]` / `[-1,N-1]`, and the two while-loops); a slice with
`step = 0` emits nothing on any node; and `[::-1]` on an array of length `N`
yields the elements at indices `N-1` down to `0`. -/
theorem c5_slice_semantics :
    (∀ (s? e? : Option Int) (st : Int) (N : Nat),
        sliceIndices s? e? st N = specSliceIndices s? e? st N) ∧
    (∀ (s? e? : Option Int) (n : Node), selectorSliceNodes s? e? 0 n = []) ∧
    (∀ (loc : String) (xs : List Value),
        selectorSliceNodes none none (-1) ⟨loc, .arr xs⟩
          = ((List.range xs.length).reverse).map
              (fun j => ⟨childIdxLoc loc (j : Int), xs.getD j .null⟩)) := by
  refine ⟨sliceIndices_eq_spec, ?_, ?_⟩
  · intro s? e? n
    cases n with
    | mk loc v => cases v <;> simp [selectorSliceNodes, sliceIndices]
  · intro loc xs
    simp only [selectorSliceNodes]
    rw [sliceIndices_eq_spec]
    have h0 : ((-1 : Int) = 0) = False := by simp
    simp only [specSliceIndices]
    rw [dif_neg (by omega : ¬ (-1 : Int) = 0), dif_pos (by omega : (-1 : Int) < 0)]
    simp only [if_pos (show ((-1 : Int) < 0) by omega)]
    have hu : min (max ((xs.length : Int) - 1) (-1)) ((xs.length : Int) - 1)
        = (xs.length : Int) - 1 := by omega
    have hl : min (max (-(xs.length : Int) - 1) (-1)) ((xs.length : Int) - 1) = -1 := by
      omega
    rw [hu, hl, specWhileGt_countdown]
    refine List.map_congr_left (fun j hj => ?_)
    simp

/-! ## Claim C10: locations and the path decoder

A `Step` is one `[i]` or `["k"]` component of a normalized location; the
decoder below is the claim's "obvious path decoder" for the location
grammar of the spec (`$` followed by `[i]` and `["k"]` steps, keys rendered
verbatim between double quotes). -/

inductive Step where
  | idx (i : Nat)
  | key (k : String)

/-- The characters a `Step` contributes to a location string. -/
def stepChars : Step → List Char
  | .idx i => '[' :: ((natStr i).data ++ [']'])
  | .key k => '[' :: '"' :: (k.data ++ ['"', ']'])

def renderSteps : List Step → List Char
  | [] => []
  | s :: rest => stepChars s ++ renderSteps rest

/-- The normalized location of the value reached by following `p` from the
root. -/
def renderPath (p : List Step) : String := String.mk ('$' :: renderSteps p)

/-- Scan a verbatim key up to the closing `"]`. -/
def scanKey : List Char → Option (List Char × List Char)
  | [] => none
  | c :: rest =>
    if c = '"' then
      match rest with
      | ']' :: r2 => some ([], r2)
      | _ => none
    else (scanKey rest).map (fun p => (c :: p.1, p.2))

def scanIdxAux : Nat → List Char → Option (Nat × List Char)
  | _, [] => none
  | acc, c :: rest =>
    if c = ']' then some (acc, rest)
    else if c.isDigit then scanIdxAux (acc * 10 + (c.toNat - 48)) rest else none

/-- Scan a decimal index up to the closing `]` (at least one digit). -/
def scanIdx : List Char → Option (Nat × List Char)
  | [] => none
  | c :: rest => if c.isDigit then scanIdxAux (c.toNat - 48) rest else none

/-- Decode a sequence of `[i]` / `["k"]` steps.  The fuel only needs to
cover the number of steps (each step consumes at least one character). -/
def parseSteps : Nat → List Char → Option (List Step)
  | _, [] => some []
  | 0, _ :: _ => none
  | f + 1, c :: rest =>
    if c = '[' then
      match rest with
      | [] => none
      | c2 :: r2 =>
        if c2 = '"' then
          match scanKey r2 with
          | some (k, r3) => (parseSteps f r3).map (fun steps => .key (String.mk k) :: steps)
          | none => none
        else
          match scanIdx (c2 :: r2) with
          | some (n, r3) => (parseSteps f r3).map (fun steps => .idx n :: steps)
          | none => none
    else none

/-- Decode a whole location: `$` followed by steps. -/
def parseLocation (s : String) : Option (List Step) :=
  match s.data with
  | '$' :: rest => parseSteps rest.length rest
  | _ => none

/-- One resolution step against a value. -/
def stepApply : Step → Value → Option Value
  | .idx i, .arr xs => xs[i]?
  | .key k, .obj es => lookupV es k
  | _, _ => none

/-- Resolve a decoded path against the root value. -/
def resolvePath : List Step → Value → Option Value
  | [], v => some v
  | s :: rest, v => (stepApply s v).bind (resolvePath rest)

/-- The claim's resolution of a location string against the root. -/
def locResolve (root : Value) (loc : String) : Option Value :=
  (parseLocation loc).bind (fun p => resolvePath p root)

/-- A string with no double-quote character (rendered verbatim between
quotes, such a key decodes back to itself). -/
def strQuoteFree (s : String) : Bool := s.data.all (fun c => c ≠ '"')

/-- All keys along a path are quote-free. -/
def pathQuoteFree : List Step → Bool
  | [] => true
  | .idx _ :: rest => pathQuoteFree rest
  | .key k :: rest => strQuoteFree k && pathQuoteFree rest

mutual

/-- Whether a value is a faithful image of a Go value tree with quote-free
object keys: object keys are pairwise distinct (Go maps guarantee this) and
contain no double-quote character, recursively. -/
def valueWf : Value → Bool
  | .num _ => true
  | .str _ => true
  | .bool _ => true
  | .null => true
  | .arr xs => valueWfList xs
  | .obj es => keysNodup es && valueWfEntries es

def valueWfList : List Value → Bool
  | [] => true
  | v :: rest => valueWf v && valueWfList rest

def valueWfEntries : List (String × Value) → Bool
  | [] => true
  | (k, v) :: rest => strQuoteFree k && valueWf v && valueWfEntries rest

end

theorem string_mk_data (s : String) : String.mk s.data = s := rfl

theorem renderSteps_append (p q : List Step) :
    renderSteps (p ++ q) = renderSteps p ++ renderSteps q := by
  induction p with
  | nil => rfl
  | cons s rest ih => simp [renderSteps, ih]

theorem childKeyLoc_render (p : List Step) (k : String) :
    childKeyLoc (renderPath p) k = renderPath (p ++ [Step.key k]) := by
  cases k with
  | mk kd =>
    show String.mk ('$' :: renderSteps p) ++ String.mk ['[', '"'] ++ String.mk kd
        ++ String.mk ['"', ']'] = _
    unfold renderPath
    rw [renderSteps_append]
    show String.mk ((('$' :: renderSteps p) ++ ['[', '"'] ++ kd) ++ ['"', ']'])
        = String.mk ('$' :: (renderSteps p ++ renderSteps [Step.key ⟨kd⟩]))
    simp [renderSteps, stepChars]

theorem childIdxLoc_render (p : List Step) (i : Int) (h : 0 ≤ i) :
    childIdxLoc (renderPath p) i = renderPath (p ++ [Step.idx i.toNat]) := by
  unfold childIdxLoc intStr
  rw [if_neg (by omega)]
  show String.mk ('$' :: renderSteps p) ++ String.mk ['['] ++ String.mk (natStr i.toNat).data
      ++ String.mk [']'] = _
  unfold renderPath
  rw [renderSteps_append]
  show String.mk ((('$' :: renderSteps p) ++ ['['] ++ (natStr i.toNat).data) ++ [']'])
      = String.mk ('$' :: (renderSteps p ++ renderSteps [Step.idx i.toNat]))
  simp [renderSteps, stepChars]

theorem digitCh_spec (d : Nat) (h : d < 10) :
    (digitCh d).isDigit = true ∧ (digitCh d).toNat - 48 = d ∧ digitCh d ≠ ']' ∧
      digitCh d ≠ '"' ∧ digitCh d ≠ '[' := by
  interval_cases d <;> exact ⟨by decide, by decide, by decide, by decide, by decide⟩

theorem natDigitsRevF_lt (f n : Nat) (h : n ≤ f) : ∀ d ∈ natDigitsRevF f n, d < 10 := by
  induction f generalizing n with
  | zero => intro d hd; simp [natDigitsRevF] at hd
  | succ f ih =>
    intro d hd
    rw [natDigitsRevF] at hd
    by_cases h10 : n < 10
    · rw [if_pos h10] at hd; simp at hd; omega
    · rw [if_neg h10] at hd
      rcases List.mem_cons.mp hd with h1 | h1
      · omega
      · exact ih (n / 10) (by omega) d h1

theorem natDigitsRevF_foldl (f n acc : Nat) (h : n ≤ f) :
    ((natDigitsRevF f n).reverse).foldl (fun a d => a * 10 + d) acc
      = acc * 10 ^ (natDigitsRevF f n).length + n := by
  induction f generalizing n acc with
  | zero =>
    have : n = 0 := by omega
    subst this
    simp [natDigitsRevF]
  | succ f ih =>
    rw [natDigitsRevF]
    by_cases h10 : n < 10
    · rw [if_pos h10]; simp
    · rw [if_neg h10]
      rw [List.reverse_cons, List.foldl_append, ih (n / 10) acc (by omega)]
      simp only [List.foldl_cons, List.foldl_nil, List.length_cons]
      have hmod : 10 * (n / 10) + n % 10 = n := Nat.div_add_mod n 10
      calc (acc * 10 ^ (natDigitsRevF f (n / 10)).length + n / 10) * 10 + n % 10
          = acc * (10 ^ (natDigitsRevF f (n / 10)).length * 10)
            + (10 * (n / 10) + n % 10) := by ring
        _ = acc * 10 ^ ((natDigitsRevF f (n / 10)).length + 1) + n := by
            rw [hmod, pow_succ]

theorem natDigitsRevF_ne_nil (n : Nat) : natDigitsRevF (n + 1) n ≠ [] := by
  rw [natDigitsRevF]
  by_cases h10 : n < 10
  · rw [if_pos h10]; simp
  · rw [if_neg h10]; simp

theorem scanIdxAux_digits (ds : List Nat) (acc : Nat) (r : List Char)
    (hds : ∀ d ∈ ds, d < 10) :
    scanIdxAux acc (ds.map digitCh ++ ']' :: r)
      = some (ds.foldl (fun a d => a * 10 + d) acc, r) := by
  induction ds generalizing acc with
  | nil => simp [scanIdxAux]
  | cons d ds ih =>
    obtain ⟨hdig, hval, hrb, _, _⟩ := digitCh_spec d (hds d (List.mem_cons_self _ _))
    simp only [List.map_cons, List.cons_append, scanIdxAux, if_neg hrb, hdig, if_pos, if_true,
      hval, List.foldl_cons]
    exact ih (acc * 10 + d) (fun x hx => hds x (List.mem_cons_of_mem _ hx))

theorem scanIdx_digits (d : Nat) (ds : List Nat) (r : List Char)
    (hds : ∀ x ∈ d :: ds, x < 10) :
    scanIdx ((d :: ds).map digitCh ++ ']' :: r)
      = some ((d :: ds).foldl (fun a x => a * 10 + x) 0, r) := by
  obtain ⟨hdig, hval, _, _, _⟩ := digitCh_spec d (hds d (List.mem_cons_self _ _))
  simp only [List.map_cons, List.cons_append, scanIdx, hdig, if_pos, if_true, hval,
    List.foldl_cons, Nat.zero_mul, Nat.zero_add]
  exact scanIdxAux_digits ds d r (fun x hx => hds x (List.mem_cons_of_mem _ hx))

theorem scanIdx_natStr (n : Nat) (r : List Char) :
    scanIdx ((natStr n).data ++ ']' :: r) = some (n, r) := by
  have hne := natDigitsRevF_ne_nil n
  have hlt := natDigitsRevF_lt (n + 1) n (by omega)
  have hfold := natDigitsRevF_foldl (n + 1) n 0 (by omega)
  rcases hB : (natDigitsRevF (n + 1) n).reverse with _ | ⟨d, ds⟩
  · exact absurd (by simpa using congrArg List.reverse hB) hne
  · have hmem : ∀ x ∈ d :: ds, x < 10 := by
      intro x hx
      exact hlt x (by rw [← List.mem_reverse, hB]; exact hx)
    have : (natStr n).data = (d :: ds).map digitCh := by
      show ((natDigitsRevF (n + 1) n).reverse.map digitCh) = _
      rw [hB]
    rw [this]
    rw [scanIdx_digits d ds r hmem]
    rw [hB] at hfold
    simp only [Nat.zero_mul, Nat.zero_add] at hfold
    rw [hfold]

theorem scanKey_append (k : List Char) (r : List Char) (hk : ∀ c ∈ k, c ≠ '"') :
    scanKey (k ++ '"' :: ']' :: r) = some (k, r) := by
  induction k with
  | nil => simp [scanKey]
  | cons c rest ih =>
    have hc : c ≠ '"' := hk c (List.mem_cons_self _ _)
    simp only [List.cons_append, scanKey, if_neg hc, List.append_eq]
    rw [ih (fun x hx => hk x (List.mem_cons_of_mem _ hx))]
    rfl

theorem natStr_head (n : Nat) :
    ∃ c cs, (natStr n).data = c :: cs ∧ c.isDigit = true ∧ c ≠ '"' := by
  have hne := natDigitsRevF_ne_nil n
  have hlt := natDigitsRevF_lt (n + 1) n (by omega)
  rcases hB : (natDigitsRevF (n + 1) n).reverse with _ | ⟨d, ds⟩
  · exact absurd (by simpa using congrArg List.reverse hB) hne
  · have hd : d < 10 := by
      refine hlt d ?_
      rw [← List.mem_reverse, hB]
      exact List.mem_cons_self _ _
    obtain ⟨h1, _, _, h2, _⟩ := digitCh_spec d hd
    refine ⟨digitCh d, ds.map digitCh, ?_, h1, h2⟩
    show ((natDigitsRevF (n + 1) n).reverse.map digitCh) = _
    rw [hB]
    rfl

theorem strQuoteFree_chars {k : String} (h : strQuoteFree k = true) :
    ∀ c ∈ k.data, c ≠ '"' := by
  intro c hc
  have := List.all_eq_true.mp h c hc
  simpa using this

theorem parseSteps_render (p : List Step) (f : Nat) (hf : p.length ≤ f)
    (hq : pathQuoteFree p = true) : parseSteps f (renderSteps p) = some p := by
  induction p generalizing f with
  | nil => cases f <;> rfl
  | cons s p ih =>
    cases f with
    | zero => simp at hf
    | succ f =>
      cases s with
      | idx i =>
        obtain ⟨c, cs, hdata, hdig, hnq⟩ := natStr_head i
        have hstep : renderSteps (Step.idx i :: p)
            = '[' :: (c :: (cs ++ ']' :: renderSteps p)) := by
          show ('[' :: ((natStr i).data ++ [']'])) ++ renderSteps p = _
          rw [hdata]
          simp
        rw [hstep]
        simp only [parseSteps, if_pos rfl, if_neg hnq]
        have : scanIdx (c :: (cs ++ ']' :: renderSteps p))
            = some (i, renderSteps p) := by
          have := scanIdx_natStr i (renderSteps p)
          rw [hdata] at this
          simpa using this
        rw [this]
        simp only [if_true]
        rw [ih f (by simpa using hf) (by simpa [pathQuoteFree] using hq)]
        rfl
      | key k =>
        simp only [pathQuoteFree, Bool.and_eq_true] at hq
        have hstep : renderSteps (Step.key k :: p)
            = '[' :: '"' :: (k.data ++ '"' :: ']' :: renderSteps p) := by
          show ('[' :: '"' :: (k.data ++ ['"', ']'])) ++ renderSteps p = _
          simp
        rw [hstep]
        simp only [parseSteps, if_pos rfl]
        rw [scanKey_append k.data (renderSteps p) (strQuoteFree_chars hq.1)]
        simp only [if_true]
        rw [ih f (by simpa using hf) hq.2]
        simp [string_mk_data]

theorem renderSteps_length (p : List Step) : p.length ≤ (renderSteps p).length := by
  induction p with
  | nil => simp
  | cons s rest ih =>
    have : 1 ≤ (stepChars s).length := by cases s <;> simp [stepChars]
    simp only [renderSteps, List.length_append, List.length_cons]
    omega

theorem parseLocation_render (p : List Step) (hq : pathQuoteFree p = true) :
    parseLocation (renderPath p) = some p := by
  show parseSteps (renderSteps p).length (renderSteps p) = some p
  exact parseSteps_render p _ (renderSteps_length p) hq

theorem resolvePath_append (p : List Step) (s : Step) (v : Value) :
    resolvePath (p ++ [s]) v = (resolvePath p v).bind (stepApply s) := by
  induction p generalizing v with
  | nil =>
    simp only [List.nil_append, resolvePath]
    cases h : stepApply s v <;> simp [resolvePath, h]
  | cons t rest ih =>
    simp only [List.cons_append, resolvePath]
    cases h : stepApply t v <;> simp [ih, h]

/-- A node whose location is the rendering of a quote-free path that
resolves, against the root, to exactly the node's value. -/
def GoodNode (root : Value) (n : Node) : Prop :=
  ∃ p : List Step, pathQuoteFree p = true ∧ n.location = renderPath p ∧
    resolvePath p root = some n.value

theorem valueWfList_mem {xs : List Value} (h : valueWfList xs = true) {v : Value}
    (hm : v ∈ xs) : valueWf v = true := by
  induction xs with
  | nil => cases hm
  | cons x rest ih =>
    simp only [valueWfList, Bool.and_eq_true] at h
    rcases List.mem_cons.mp hm with h1 | h1
    · subst h1; exact h.1
    · exact ih h.2 h1

theorem valueWfEntries_mem {es : List (String × Value)} (h : valueWfEntries es = true)
    {k : String} {v : Value} (hm : (k, v) ∈ es) :
    strQuoteFree k = true ∧ valueWf v = true := by
  induction es with
  | nil => cases hm
  | cons p rest ih =>
    obtain ⟨k0, v0⟩ := p
    simp only [valueWfEntries, Bool.and_eq_true] at h
    rcases List.mem_cons.mp hm with h1 | h1
    · cases h1; exact ⟨h.1.1, h.1.2⟩
    · exact ih h.2 h1

theorem lookupV_mem {es : List (String × Value)} {k : String} {v : Value}
    (h : lookupV es k = some v) : (k, v) ∈ es := by
  induction es with
  | nil => simp [lookupV] at h
  | cons p rest ih =>
    obtain ⟨k0, v0⟩ := p
    simp only [lookupV] at h
    split at h
    · rename_i he
      cases h
      subst he
      exact List.mem_cons_self _ _
    · exact List.mem_cons_of_mem _ (ih h)

theorem stepApply_wf {s : Step} {v w : Value} (hv : valueWf v = true)
    (hs : stepApply s v = some w) : valueWf w = true := by
  cases s with
  | idx i =>
    cases v with
    | arr xs =>
      simp only [stepApply] at hs
      have hxs : valueWfList xs = true := by simpa [valueWf] using hv
      exact valueWfList_mem hxs (List.getElem?_mem hs)
    | num a => simp [stepApply] at hs
    | str a => simp [stepApply] at hs
    | bool a => simp [stepApply] at hs
    | null => simp [stepApply] at hs
    | obj es => simp [stepApply] at hs
  | key k =>
    cases v with
    | obj es =>
      simp only [stepApply] at hs
      have h2 : valueWfEntries es = true := by
        simp only [valueWf, Bool.and_eq_true] at hv
        exact hv.2
      exact (valueWfEntries_mem h2 (lookupV_mem hs)).2
    | num a => simp [stepApply] at hs
    | str a => simp [stepApply] at hs
    | bool a => simp [stepApply] at hs
    | null => simp [stepApply] at hs
    | arr xs => simp [stepApply] at hs

theorem resolvePath_wf {p : List Step} {root v : Value} (hroot : valueWf root = true)
    (h : resolvePath p root = some v) : valueWf v = true := by
  induction p generalizing root with
  | nil => simp only [resolvePath, Option.some.injEq] at h; subst h; exact hroot
  | cons s rest ih =>
    simp only [resolvePath] at h
    cases hs : stepApply s root with
    | none => rw [hs] at h; cases h
    | some w =>
      rw [hs] at h
      exact ih (stepApply_wf hroot hs) h

theorem pathQuoteFree_append {p q : List Step} (hp : pathQuoteFree p = true)
    (hq : pathQuoteFree q = true) : pathQuoteFree (p ++ q) = true := by
  induction p with
  | nil => simpa using hq
  | cons s rest ih =>
    cases s with
    | idx i => simpa [pathQuoteFree] using ih (by simpa [pathQuoteFree] using hp)
    | key k =>
      simp only [pathQuoteFree, Bool.and_eq_true] at hp ⊢
      exact ⟨hp.1, ih hp.2⟩

theorem selectorNameNodes_good {root : Value} (hroot : valueWf root = true) (name : String)
    {n : Node} (hn : GoodNode root n) : ∀ m ∈ selectorNameNodes name n, GoodNode root m := by
  obtain ⟨p, hq, hloc, hres⟩ := hn
  intro m hm
  unfold selectorNameNodes at hm
  split at hm
  · rename_i es heq
    split at hm
    · rename_i v hlk
      rcases List.mem_singleton.mp hm with rfl
      have hwfv : valueWf (.obj es) = true := resolvePath_wf hroot (heq ▸ hres)
      simp only [valueWf, Bool.and_eq_true] at hwfv
      have hkv := valueWfEntries_mem hwfv.2 (lookupV_mem hlk)
      refine ⟨p ++ [.key name], ?_, ?_, ?_⟩
      · exact pathQuoteFree_append hq (by simp [pathQuoteFree, hkv.1])
      · show childKeyLoc n.location name = _
        rw [hloc, childKeyLoc_render]
      · rw [resolvePath_append, hres, heq]
        simpa [stepApply] using hlk
    · cases hm
  · cases hm

theorem getElem?_eq_getD {xs : List Value} {k : Nat} (h : k < xs.length) :
    xs[k]? = some (xs.getD k .null) := by
  induction xs generalizing k with
  | nil => simp at h
  | cons x rest ih =>
    cases k with
    | zero => simp [List.getD]
    | succ k => simpa using ih (by simpa using h)

theorem mem_enumFrom_getElem? {xs : List Value} {i j : Nat} {x : Value}
    (h : (j, x) ∈ xs.enumFrom i) : i ≤ j ∧ xs[j - i]? = some x := by
  induction xs generalizing i with
  | nil => cases h
  | cons y ys ih =>
    rw [List.enumFrom_cons] at h
    rcases List.mem_cons.mp h with h1 | h1
    · cases h1
      simp
    · obtain ⟨hle, hget⟩ := ih h1
      refine ⟨by omega, ?_⟩
      have : j - i = (j - (i + 1)) + 1 := by omega
      rw [this]
      simpa using hget

theorem selectorWildcardNodes_good {root : Value} (hroot : valueWf root = true)
    {n : Node} (hn : GoodNode root n) : ∀ m ∈ selectorWildcardNodes n, GoodNode root m := by
  obtain ⟨p, hq, hloc, hres⟩ := hn
  intro m hm
  unfold selectorWildcardNodes at hm
  split at hm
  · rename_i es heq
    rw [List.mem_map] at hm
    obtain ⟨⟨k, v⟩, hkv, rfl⟩ := hm
    have hwfv : valueWf (.obj es) = true := resolvePath_wf hroot (heq ▸ hres)
    simp only [valueWf, Bool.and_eq_true] at hwfv
    have hkq := valueWfEntries_mem hwfv.2 hkv
    refine ⟨p ++ [.key k], ?_, ?_, ?_⟩
    · exact pathQuoteFree_append hq (by simp [pathQuoteFree, hkq.1])
    · show childKeyLoc n.location k = _
      rw [hloc, childKeyLoc_render]
    · rw [resolvePath_append, hres, heq]
      simpa [stepApply] using lookupV_self hwfv.1 hkv
  · rename_i xs heq
    rw [List.mem_map] at hm
    obtain ⟨⟨i, x⟩, hix, rfl⟩ := hm
    have hget : xs[i]? = some x := by
      have := mem_enumFrom_getElem? (i := 0) (by simpa [List.enum] using hix)
      simpa using this.2
    refine ⟨p ++ [.idx i], ?_, ?_, ?_⟩
    · exact pathQuoteFree_append hq (by simp [pathQuoteFree])
    · show childIdxLoc n.location (i : Int) = _
      rw [hloc, childIdxLoc_render _ _ (by omega)]
      simp
    · rw [resolvePath_append, hres, heq]
      simpa [stepApply] using hget
  · cases hm

theorem selectorIndexNode_good {root : Value} (hroot : valueWf root = true) (idx : Int)
    {n m : Node} (hn : GoodNode root n) (hm : selectorIndexNode idx n = some m) :
    GoodNode root m := by
  obtain ⟨p, hq, hloc, hres⟩ := hn
  unfold selectorIndexNode at hm
  split at hm
  · rename_i xs heq
    set i : Int := if idx < 0 then idx + xs.length else idx with hidef
    by_cases hrange : i < 0 ∨ (xs.length : Int) ≤ i
    · rw [if_pos hrange] at hm
      cases hm
    · rw [if_neg hrange] at hm
      cases hm
      push_neg at hrange
      refine ⟨p ++ [.idx i.toNat], ?_, ?_, ?_⟩
      · exact pathQuoteFree_append hq (by simp [pathQuoteFree])
      · show childIdxLoc n.location _ = _
        rw [hloc, childIdxLoc_render _ _ (by omega)]
      · rw [resolvePath_append, hres, heq]
        simp only [stepApply, Option.some_bind]
        exact getElem?_eq_getD (by omega)
  · cases hm

theorem specWhileLt_mem (i upper step : Int) (h : 0 < step) :
    ∀ j ∈ specWhileLt i upper step h, i ≤ j ∧ j < upper := by
  intro j hj
  rw [specWhileLt] at hj
  split at hj
  · rcases List.mem_cons.mp hj with rfl | h1
    · rename_i hlt
      exact ⟨le_refl _, hlt⟩
    · have := specWhileLt_mem (i + step) upper step h j h1
      exact ⟨by omega, this.2⟩
  · cases hj
termination_by (upper - i).toNat
decreasing_by rename_i hlt _; omega

theorem specWhileGt_mem (i lower step : Int) (h : step < 0) :
    ∀ j ∈ specWhileGt i lower step h, lower < j ∧ j ≤ i := by
  intro j hj
  rw [specWhileGt] at hj
  split at hj
  · rcases List.mem_cons.mp hj with rfl | h1
    · rename_i hgt
      exact ⟨hgt, le_refl _⟩
    · have := specWhileGt_mem (i + step) lower step h j h1
      exact ⟨this.1, by omega⟩
  · cases hj
termination_by (i - lower).toNat
decreasing_by rename_i hgt _; omega

theorem sliceIndices_mem_bounds (s? e? : Option Int) (st : Int) (N : Nat) :
    ∀ i ∈ sliceIndices s? e? st N, 0 ≤ i ∧ i < (N : Int) := by
  intro i hi
  rw [sliceIndices_eq_spec] at hi
  unfold specSliceIndices at hi
  split at hi
  · cases hi
  · rcases s? with _ | s <;> rcases e? with _ | e <;> dsimp only at hi <;> split at hi <;>
      first
      | (have hb := specWhileGt_mem _ _ _ _ i hi
         simp only [sup_eq_max, inf_eq_min] at hb
         omega)
      | (have hb := specWhileLt_mem _ _ _ _ i hi
         simp only [sup_eq_max, inf_eq_min] at hb
         omega)

theorem selectorSliceNodes_good {root : Value} (hroot : valueWf root = true)
    (s? e? : Option Int) (st : Int) {n : Node} (hn : GoodNode root n) :
    ∀ m ∈ selectorSliceNodes s? e? st n, GoodNode root m := by
  obtain ⟨p, hq, hloc, hres⟩ := hn
  intro m hm
  unfold selectorSliceNodes at hm
  split at hm
  · rename_i xs heq
    rw [List.mem_map] at hm
    obtain ⟨i, hi, rfl⟩ := hm
    obtain ⟨hi0, hiN⟩ := sliceIndices_mem_bounds s? e? st xs.length i hi
    refine ⟨p ++ [.idx i.toNat], ?_, ?_, ?_⟩
    · exact pathQuoteFree_append hq (by simp [pathQuoteFree])
    · show childIdxLoc n.location i = _
      rw [hloc, childIdxLoc_render _ _ hi0]
    · rw [resolvePath_append, hres, heq]
      simp only [stepApply, Option.some_bind]
      exact getElem?_eq_getD (by omega)
  · cases hm

mutual

theorem preorderV_good (root : Value) (p : List Step) (v : Value)
    (hq : pathQuoteFree p = true) (hres : resolvePath p root = some v)
    (hwf : valueWf v = true) :
    ∀ m ∈ preorderV (renderPath p) v, GoodNode root m := by
  intro m hm
  cases v with
  | arr xs =>
    rw [preorderV] at hm
    rcases List.mem_cons.mp hm with rfl | h1
    · exact ⟨p, hq, rfl, hres⟩
    · exact preorderArr_good root p xs xs 0 hq hres (by simpa [valueWf] using hwf)
        (fun k x hx => by simpa using hx) m h1
  | obj es =>
    rw [preorderV] at hm
    rcases List.mem_cons.mp hm with rfl | h1
    · exact ⟨p, hq, rfl, hres⟩
    · have hwf' : keysNodup es = true ∧ valueWfEntries es = true := by
        simpa [valueWf, Bool.and_eq_true] using hwf
      exact preorderObj_good root p es es hq hres hwf'.1 hwf'.2 (fun pr hpr => hpr) m h1
  | num a =>
    have hm' : m ∈ [Node.mk (renderPath p) (Value.num a)] := hm
    rcases List.mem_singleton.mp hm' with rfl
    exact ⟨p, hq, rfl, hres⟩
  | str a =>
    have hm' : m ∈ [Node.mk (renderPath p) (Value.str a)] := hm
    rcases List.mem_singleton.mp hm' with rfl
    exact ⟨p, hq, rfl, hres⟩
  | bool a =>
    have hm' : m ∈ [Node.mk (renderPath p) (Value.bool a)] := hm
    rcases List.mem_singleton.mp hm' with rfl
    exact ⟨p, hq, rfl, hres⟩
  | null =>
    have hm' : m ∈ [Node.mk (renderPath p) (Value.null)] := hm
    rcases List.mem_singleton.mp hm' with rfl
    exact ⟨p, hq, rfl, hres⟩

theorem preorderArr_good (root : Value) (p : List Step) (xs0 xs : List Value) (i : Nat)
    (hq : pathQuoteFree p = true) (hres : resolvePath p root = some (.arr xs0))
    (hwf : valueWfList xs = true)
    (hsuffix : ∀ k x, xs[k]? = some x → xs0[i + k]? = some x) :
    ∀ m ∈ preorderArr (renderPath p) i xs, GoodNode root m := by
  intro m hm
  match xs with
  | [] => cases hm
  | x :: rest =>
    rw [preorderArr] at hm
    simp only [Bool.and_eq_true, valueWfList] at hwf
    rcases List.mem_append.mp hm with h1 | h1
    · have hchild : resolvePath (p ++ [.idx i]) root = some x := by
        rw [resolvePath_append, hres]
        simp only [stepApply, Option.some_bind]
        simpa using hsuffix 0 x (by simp)
      have hq' : pathQuoteFree (p ++ [.idx i]) = true :=
        pathQuoteFree_append hq (by simp [pathQuoteFree])
      have hloc : childIdxLoc (renderPath p) (i : Int) = renderPath (p ++ [.idx i]) := by
        rw [childIdxLoc_render _ _ (by omega)]
        simp
      rw [hloc] at h1
      exact preorderV_good root (p ++ [.idx i]) x hq' hchild hwf.1 m h1
    · refine preorderArr_good root p xs0 rest (i + 1) hq hres hwf.2 ?_ m h1
      intro k y hy
      have := hsuffix (k + 1) y (by simpa using hy)
      simpa [show i + 1 + k = i + (k + 1) by omega] using this

theorem preorderObj_good (root : Value) (p : List Step)
    (es0 es : List (String × Value))
    (hq : pathQuoteFree p = true) (hres : resolvePath p root = some (.obj es0))
    (hnd : keysNodup es0 = true) (hwf : valueWfEntries es = true)
    (hsub : ∀ pr ∈ es, pr ∈ es0) :
    ∀ m ∈ preorderObj (renderPath p) es, GoodNode root m := by
  intro m hm
  match es with
  | [] => cases hm
  | (k, x) :: rest =>
    rw [preorderObj] at hm
    simp only [valueWfEntries, Bool.and_eq_true] at hwf
    rcases List.mem_append.mp hm with h1 | h1
    · have hchild : resolvePath (p ++ [.key k]) root = some x := by
        rw [resolvePath_append, hres]
        simp only [stepApply, Option.some_bind]
        exact lookupV_self hnd (hsub (k, x) (List.mem_cons_self _ _))
      have hq' : pathQuoteFree (p ++ [.key k]) = true :=
        pathQuoteFree_append hq (by simp [pathQuoteFree, hwf.1.1])
      rw [childKeyLoc_render] at h1
      exact preorderV_good root (p ++ [.key k]) x hq' hchild hwf.1.2 m h1
    · exact preorderObj_good root p es0 rest hq hres hnd hwf.2
        (fun pr hpr => hsub pr (List.mem_cons_of_mem _ hpr)) m h1

end

theorem fromJSONNode_good {root : Value} (hroot : valueWf root = true) {n : Node}
    (hn : GoodNode root n) : ∀ m ∈ fromJSONNode n, GoodNode root m := by
  obtain ⟨p, hq, hloc, hres⟩ := hn
  show ∀ m ∈ preorderV n.location n.value, GoodNode root m
  rw [hloc]
  exact preorderV_good root p n.value hq hres (resolvePath_wf hroot hres)

theorem filterMNodes_sub (p : Node → Option Bool) :
    ∀ input out, filterMNodes p input = some out → ∀ n ∈ out, n ∈ input := by
  intro input
  induction input with
  | nil =>
    intro out h n hn
    simp only [filterMNodes, Option.some.injEq] at h
    subst h
    cases hn
  | cons x rest ih =>
    intro out h n hn
    simp only [filterMNodes] at h
    cases hp : p x with
    | none => rw [hp] at h; cases h
    | some b =>
      rw [hp] at h
      cases hr : filterMNodes p rest with
      | none => rw [hr] at h; cases h
      | some r =>
        rw [hr] at h
        cases h
        cases b with
        | true =>
          simp only [if_pos rfl] at hn
          rcases List.mem_cons.mp hn with rfl | h2
          · exact List.mem_cons_self _ _
          · exact List.mem_cons_of_mem _ (ih r hr n h2)
        | false =>
          simp only [Bool.false_eq_true, if_neg] at hn
          exact List.mem_cons_of_mem _ (ih r hr n hn)

mutual

/-- Whether an IR tree uses `Literal` in node-transformer (`Evaluate`)
position.  `Literal.Evaluate` replaces a node's value while keeping its
location; the parser only ever places `Literal` in `EvaluateSingle`
position (inside comparisons and function arguments), never as a segment
or selector, so `noLiteralE` holds for every parser-produced IR.  Only the
query/segment constructors fold their members over the node sequence, so
only they are inspected recursively; the filtering constructors emit
subsets of their input whatever their operands do. -/
def noLiteralE : Expr → Bool
  | .literalE _ => false
  | .queryJSONPath segs => noLiteralEList segs
  | .segmentChild sels => noLiteralEList sels
  | .segmentDescendant sels => noLiteralEList sels
  | .queryRel segs => noLiteralEList segs
  | _ => true

def noLiteralEList : List Expr → Bool
  | [] => true
  | e :: rest => noLiteralE e && noLiteralEList rest

end

mutual

/-- Every node emitted by a non-panicking evaluation of an IR without
`Literal` in `Evaluate` position, over good input nodes, is good: its
location is a rendered quote-free path resolving to its value. -/
theorem evalExpr_good (e : Expr) (root : Value) (input out : List Node)
    (hroot : valueWf root = true) (hnl : noLiteralE e = true)
    (hin : ∀ n ∈ input, GoodNode root n) (heval : evalExpr e input = some out) :
    ∀ n ∈ out, GoodNode root n := by
  match e with
  | .queryJSONPath segs =>
    exact evalFold_good segs root input out hroot (by simpa [noLiteralE] using hnl) hin heval
  | .segmentChild sels =>
    exact evalFold_good sels root input out hroot (by simpa [noLiteralE] using hnl) hin heval
  | .queryRel segs =>
    exact evalFold_good segs root input out hroot (by simpa [noLiteralE] using hnl) hin heval
  | .segmentDescendant sels =>
    refine evalFold_good sels root (input.flatMap fromJSONNode) out hroot
      (by simpa [noLiteralE] using hnl) ?_ heval
    intro n hn
    obtain ⟨n', hn', hm⟩ := List.mem_flatMap.mp hn
    exact fromJSONNode_good hroot (hin n' hn') n hm
  | .selectorName name =>
    simp only [evalExpr, Option.some.injEq] at heval
    subst heval
    intro n hn
    obtain ⟨n', hn', hm⟩ := List.mem_flatMap.mp hn
    exact selectorNameNodes_good hroot name (hin n' hn') n hm
  | .selectorWildcard =>
    simp only [evalExpr, Option.some.injEq] at heval
    subst heval
    intro n hn
    obtain ⟨n', hn', hm⟩ := List.mem_flatMap.mp hn
    exact selectorWildcardNodes_good hroot (hin n' hn') n hm
  | .selectorSlice s? e? st =>
    simp only [evalExpr, Option.some.injEq] at heval
    subst heval
    intro n hn
    obtain ⟨n', hn', hm⟩ := List.mem_flatMap.mp hn
    exact selectorSliceNodes_good hroot s? e? st (hin n' hn') n hm
  | .selectorIndex i =>
    simp only [evalExpr, Option.some.injEq] at heval
    subst heval
    intro n hn
    obtain ⟨n', hn', hm⟩ := List.mem_flatMap.mp hn
    exact selectorIndexNode_good hroot i (hin n' hn') (Option.mem_toList.mp hm)
  | .selectorFilter e' =>
    simp only [evalExpr] at heval
    intro n hn
    exact hin n (filterMNodes_sub _ input out heval n hn)
  | .exprLogicalOr es =>
    simp only [evalExpr] at heval
    intro n hn
    exact hin n (filterMNodes_sub _ input out heval n hn)
  | .exprLogicalAnd es =>
    simp only [evalExpr] at heval
    intro n hn
    exact hin n (filterMNodes_sub _ input out heval n hn)
  | .exprLogicalNot e' =>
    simp only [evalExpr] at heval
    intro n hn
    exact hin n (filterMNodes_sub _ input out heval n hn)
  | .exprComparison l r op =>
    simp only [evalExpr] at heval
    intro n hn
    exact hin n (filterMNodes_sub _ input out heval n hn)
  | .exprParen e' =>
    simp only [evalExpr] at heval
    split at heval
    · cases heval
      intro n hn
      cases hn
    · cases heval
  | .literalE v => simp [noLiteralE] at hnl
  | .funcLength a => cases heval
  | .funcCount a => cases heval
  | .funcMatch s => cases heval
  | .funcSearch s => cases heval
  | .funcValue a => cases heval

theorem evalFold_good (l : List Expr) (root : Value) (input out : List Node)
    (hroot : valueWf root = true) (hnl : noLiteralEList l = true)
    (hin : ∀ n ∈ input, GoodNode root n) (heval : evalFold l input = some out) :
    ∀ n ∈ out, GoodNode root n := by
  match l with
  | [] =>
    simp only [evalFold, Option.some.injEq] at heval
    subst heval
    exact hin
  | e :: rest =>
    simp only [evalFold] at heval
    simp only [noLiteralEList, Bool.and_eq_true] at hnl
    cases hmid : evalExpr e input with
    | none => rw [hmid] at heval; cases heval
    | some mid =>
      rw [hmid] at heval
      exact evalFold_good rest root mid out hroot hnl.2
        (evalExpr_good e root input mid hroot hnl.1 hin hmid) heval

end

/-- Claim C10, amended: for every IR that does not use `Literal` as a
node-transformer (the parser never produces one that does) and every root
value whose object keys are pairwise distinct and contain no double-quote
character, every node emitted by a completed evaluation satisfies the
location invariant: decoding the node's location (`$` followed by `[i]`
and `["k"]` steps, keys verbatim between double quotes) and resolving the
decoded path against the root yields exactly the node's value.  Keys
containing `"` break the invariant (see the counterexample), which forces
the quote-free restriction. -/
theorem c10_location_invariant_amended (e : Expr) (root : Value) (out : List Node)
    (hroot : valueWf root = true) (hnl : noLiteralE e = true)
    (heval : evalExpr e [⟨"$", root⟩] = some out) :
    ∀ n ∈ out, locResolve root n.location = some n.value := by
  have hgood : ∀ n ∈ ([⟨"$", root⟩] : List Node), GoodNode root n := by
    intro n hn
    rcases List.mem_singleton.mp hn with rfl
    exact ⟨[], rfl, rfl, rfl⟩
  intro n hn
  obtain ⟨p, hq, hloc, hres⟩ := evalExpr_good e root _ out hroot hnl hgood heval n hn
  unfold locResolve
  rw [hloc, parseLocation_render p hq]
  simpa using hres

/-- Witness for `c10_location_invariant_amended` at `$["a"]` over
`{"a": 1}`. -/
theorem c10_location_invariant_amended_witness :
    locResolve (Value.obj [("a", vnum 1)]) "$[\"a\"]" = some (vnum 1) :=
  c10_location_invariant_amended (.queryJSONPath [.segmentChild [.selectorName "a"]])
    (Value.obj [("a", vnum 1)]) [⟨"$[\"a\"]", vnum 1⟩] rfl rfl rfl
    ⟨"$[\"a\"]", vnum 1⟩ (List.mem_singleton.mpr rfl)

/-! ## The parser (`internal/parser`)

`Parser` state is the codepoint list plus the cursor index; every method is
embedded as explicit state passing.  Errors are values; constructs that Go
writes as unbounded loops or as mutually recursive productions take a fuel
argument (the loop helpers compute `remaining characters + 1`, which always
suffices because every iteration consumes at least one codepoint; the
mutually recursive production group is parameterized by one fuel spent on
each call). -/

structure PState where
  cps : List Char
  idx : Nat
deriving Repr

/-- The parser error values (`ErrUnexpectedCodepoint`,
`ErrUnsupportedFunction`, `ErrWrongArgsCountFunction`,
`ErrWrongArgTypeFunction`, the `regexp.Compile` error and the
`errors.New` cast failure in `comparable`); `outOfFuel` is the model's
fuel-exhaustion marker, reachable only with insufficient fuel. -/
inductive PErr where
  | unexpectedCodepoint (c : Option Char) (idx : Nat)
  | unsupportedFunction (name : String)
  | wrongArgCount (name : String) (expected actual : Nat)
  | wrongArgType (name : String) (index : Nat)
  | regexInvalid (pat : String)
  | castNotSingle
  | outOfFuel

/-- `Parser.shift`. -/
def pShift (p : PState) : PState := { p with idx := min (p.idx + 1) p.cps.length }

/-- `Parser.matchBy` (`0 <= p.Index` always holds for the `Nat` index). -/
def pMatchBy (f : Char → Bool) (p : PState) : Bool :=
  decide (p.idx < p.cps.length) && f (p.cps.getD p.idx ' ')

/-- `Parser.errorUnsupportedCodepoint`. -/
def pErrHere (p : PState) : PErr := .unexpectedCodepoint p.cps[p.idx]? p.idx

/-- `Parser.expectBy`. -/
def pExpectBy (f : Char → Bool) (p : PState) : Except PErr Unit × PState :=
  if pMatchBy f p then (.ok (), pShift p) else (.error (pErrHere p), p)

/-- `Parser.expect`. -/
def pExpectCp (c : Char) (p : PState) : Except PErr Unit × PState :=
  pExpectBy (fun r => r == c) p

/-- `Parser.match`. -/
def pMatchCp (c : Char) (p : PState) : Bool := pMatchBy (fun r => r == c) p

def isBlankSpace (r : Char) : Bool :=
  r == ' ' || r == '\x09' || r == '\x0A' || r == '\x0D'

def isQuoteCh (r : Char) : Bool := r == '"' || r == '\x27'

def isUnescapedCh (r : Char) : Bool :=
  ('\x20' ≤ r && r ≤ '\x21') ||
  ('\x23' ≤ r && r ≤ '\x26') ||
  ('\x28' ≤ r && r ≤ '\x5B') ||
  ('\x5D' ≤ r && r ≤ '퟿') ||
  (0xE000 ≤ r.toNat && r.toNat ≤ 0x10FFFF)

def isDigitCh (r : Char) : Bool := '0' ≤ r && r ≤ '9'

def isDigit1Ch (r : Char) : Bool := '1' ≤ r && r ≤ '9'

def isDigit0To7Ch (r : Char) : Bool := '0' ≤ r && r ≤ '7'

def isAlphaUppercaseCh (r : Char) : Bool := 'A' ≤ r && r ≤ 'Z'

def isAlphaLowercaseCh (r : Char) : Bool := 'a' ≤ r && r ≤ 'z'

def isAlphaCh (r : Char) : Bool := isAlphaUppercaseCh r || isAlphaLowercaseCh r

def isNameFirstCh (r : Char) : Bool :=
  isAlphaCh r || r == '_' || ('\x80' ≤ r && r ≤ '퟿') ||
  (0xE000 ≤ r.toNat && r.toNat ≤ 0x10FFFF)

def isNameCharCh (r : Char) : Bool := isNameFirstCh r || isDigitCh r

def isHexDigCh (r : Char) : Bool := isDigitCh r || ('A' ≤ r && r ≤ 'F')

def isSupportedFunc (name : String) : Bool :=
  name == "length" || name == "count" || name == "match" || name == "search" ||
    name == "value"

/-- The `for p.expectBy(isBlankSpace) == nil {}` loop of
`Parser.blankSpace`. -/
def blankSpaceF : Nat → PState → PState
  | 0, p => p
  | f + 1, p =>
    match pExpectBy isBlankSpace p with
    | (.ok _, p1) => blankSpaceF f p1
    | (.error _, p1) => p1

/-- `Parser.blankSpace`. -/
def blankSpace (p : PState) : PState := blankSpaceF (p.cps.length + 1 - p.idx) p

/-- The value of `p.Codepoints[p.Index-1] - '0'`. -/
def lastDigit (p : PState) : Int := ((p.cps.getD (p.idx - 1) '0').toNat : Int) - 48

/-- The digit-accumulation loop of `Parser.int`. -/
def pIntDigitsF : Nat → Int → PState → Int × PState
  | 0, n, p => (n, p)
  | f + 1, n, p =>
    match pExpectBy isDigitCh p with
    | (.ok _, p1) => pIntDigitsF f (n * 10 + lastDigit p1) p1
    | (.error _, p1) => (n, p1)

/-- `Parser.int`: `'0'`, or an optional minus, a nonzero digit and a digit
run (with no cursor restore between the `'0'` attempt and the rest — the
`'0'` attempt cannot consume). -/
def pInt (p : PState) : Except PErr Int × PState :=
  match pExpectCp '0' p with
  | (.ok _, p1) => (.ok 0, p1)
  | (.error _, p1) =>
    let (isNeg, p2) :=
      match pExpectCp '-' p1 with
      | (.ok _, q) => (true, q)
      | (.error _, q) => (false, q)
    match pExpectBy isDigit1Ch p2 with
    | (.error e, p3) => (.error e, p3)
    | (.ok _, p3) =>
      let (n, p4) := pIntDigitsF (p3.cps.length + 1 - p3.idx) (lastDigit p3) p3
      (.ok (if isNeg then -n else n), p4)

/-- `Parser.negativeZero`. -/
def pNegativeZero (p : PState) : Except PErr Unit × PState :=
  match pExpectCp '-' p with
  | (.error e, p1) => (.error e, p1)
  | (.ok _, p1) => pExpectCp '0' p1

/-- The digit loop of `Parser.frac`. -/
def pFracDigitsF : Nat → Int → PState → Int × PState
  | 0, n, p => (n, p)
  | f + 1, n, p =>
    match pExpectBy isDigitCh p with
    | (.ok _, p1) => pFracDigitsF f (n * 10 + lastDigit p1) p1
    | (.error _, p1) => (n, p1)

/-- `Parser.frac`. -/
def pFrac (p : PState) : Except PErr Int × PState :=
  match pExpectCp '.' p with
  | (.error e, p1) => (.error e, p1)
  | (.ok _, p1) =>
    match pExpectBy isDigitCh p1 with
    | (.error e, p2) => (.error e, p2)
    | (.ok _, p2) =>
      let (n, p3) := pFracDigitsF (p2.cps.length + 1 - p2.idx) (lastDigit p2) p2
      (.ok n, p3)

/-- The digit loop of `Parser.exp`, which reads `p.Codepoints[p.Index]`
(not `Index-1`; the out-of-range read that Go would panic on at the very
end of the input is modelled with a default, and `literalNumber` discards
the exponent anyway). -/
def pExpDigitsF : Nat → Int → PState → Int × PState
  | 0, n, p => (n, p)
  | f + 1, n, p =>
    match pExpectBy isDigitCh p with
    | (.ok _, p1) => pExpDigitsF f (n * 10 + (((p1.cps.getD p1.idx ' ').toNat : Int) - 48)) p1
    | (.error _, p1) => (n, p1)

/-- `Parser.exp`. -/
def pExp (p : PState) : Except PErr Int × PState :=
  match pExpectCp 'e' p with
  | (.error e, p1) => (.error e, p1)
  | (.ok _, p1) =>
    let (isNeg, p2) :=
      match pExpectCp '-' p1 with
      | (.ok _, q) => (true, q)
      | (.error _, q) =>
        match pExpectCp '+' q with
        | (.ok _, q2) => (false, q2)
        | (.error _, q2) => (false, q2)
    match pExpectBy isDigitCh p2 with
    | (.error e, p3) => (.error e, p3)
    | (.ok _, p3) =>
      let (n, p4) := pExpDigitsF (p3.cps.length + 1 - p3.idx) 0 p3
      (.ok (if isNeg then -n else n), p4)

/-- `Parser.literalNumber`: the `int` attempt, then — from whatever state
that attempt left — the `negativeZero` attempt; then optional `frac` and
the `exp` step, which multiplies by `10^0` when `exp` *fails* and ignores
a successful exponent (as the source does). -/
def pLiteralNumber (p : PState) : Except PErr GoNum × PState :=
  let (r1, p1) :=
    match pInt p with
    | (.ok n, q) => (some ((n : ℚ)), q)
    | (.error _, q) =>
      match pNegativeZero q with
      | (.ok _, q2) => (some (-(0 : ℚ)), q2)
      | (.error _, q2) => (none, q2)
  match r1 with
  | none => (.error (pErrHere p1), p1)
  | some q0 =>
    let (q1, p2) :=
      match pFrac p1 with
      | (.ok fr, q) => (q0 + (fr : ℚ) / 10, q)
      | (.error _, q) => (q0, q)
    match pExp p2 with
    | (.ok _, p3) => (.ok ⟨false, q1⟩, p3)
    | (.error _, p3) => (.ok ⟨false, q1 * (10 : ℚ) ^ (0 : Nat)⟩, p3)

/-- `Parser.nonSurrogate`. -/
def pNonSurrogate (p : PState) : Except PErr Unit × PState :=
  match pExpectCp 'D' p with
  | (.ok _, p1) =>
    match pExpectBy isDigit0To7Ch p1 with
    | (.error e, p2) => (.error e, p2)
    | (.ok _, p2) =>
      match pExpectBy isHexDigCh p2 with
      | (.error e, p3) => (.error e, p3)
      | (.ok _, p3) => pExpectBy isHexDigCh p3
  | (.error _, p1) =>
    let pred := fun r =>
      isDigitCh r || r == 'A' || r == 'B' || r == 'C' || r == 'E' || r == 'F'
    match pExpectBy pred p1 with
    | (.error e, p2) => (.error e, p2)
    | (.ok _, p2) =>
      match pExpectBy isHexDigCh p2 with
      | (.error e, p3) => (.error e, p3)
      | (.ok _, p3) =>
        match pExpectBy isHexDigCh p3 with
        | (.error e, p4) => (.error e, p4)
        | (.ok _, p4) => pExpectBy isHexDigCh p4

/-- `Parser.highSurrogate`. -/
def pHighSurrogate (p : PState) : Except PErr Unit × PState :=
  match pExpectCp 'D' p with
  | (.error e, p1) => (.error e, p1)
  | (.ok _, p1) =>
    let pred := fun r => r == '8' || r == '9' || r == 'A' || r == 'B'
    match pExpectBy pred p1 with
    | (.error e, p2) => (.error e, p2)
    | (.ok _, p2) =>
      match pExpectBy isHexDigCh p2 with
      | (.error e, p3) => (.error e, p3)
      | (.ok _, p3) => pExpectBy isHexDigCh p3

mutual

/-- `Parser.hexChar`: a non-surrogate, or a high surrogate followed by
`\u` and a low surrogate. -/
def pHexCharF : Nat → PState → Except PErr Unit × PState
  | 0, p => (.error .outOfFuel, p)
  | f + 1, p =>
    match pNonSurrogate p with
    | (.ok _, p1) => (.ok (), p1)
    | (.error _, p1) =>
      match pHighSurrogate p1 with
      | (.error e, p2) => (.error e, p2)
      | (.ok _, p2) =>
        match pExpectCp '\x5C' p2 with
        | (.error e, p3) => (.error e, p3)
        | (.ok _, p3) =>
          match pExpectCp 'u' p3 with
          | (.error e, p4) => (.error e, p4)
          | (.ok _, p4) => pLowSurrogateF f p4

/-- `Parser.lowSurrogate`; its trailing loop calls `hexChar` twice (as the
source does, rather than `hexdig`). -/
def pLowSurrogateF : Nat → PState → Except PErr Unit × PState
  | 0, p => (.error .outOfFuel, p)
  | f + 1, p =>
    match pExpectCp 'D' p with
    | (.error e, p1) => (.error e, p1)
    | (.ok _, p1) =>
      let pred := fun r => r == 'C' || r == 'D' || r == 'E' || r == 'F'
      match pExpectBy pred p1 with
      | (.error e, p2) => (.error e, p2)
      | (.ok _, p2) =>
        match pHexCharF f p2 with
        | (.error e, p3) => (.error e, p3)
        | (.ok _, p3) => pHexCharF f p3

end

/-- `Parser.hexChar` entry point (ample fuel: each nested call consumes). -/
def pHexChar (p : PState) : Except PErr Unit × PState :=
  pHexCharF (p.cps.length + 1 - p.idx) p

/-- `Parser.escapable`: one of `b f n r t / \`, else `u` and a hex char. -/
def pEscapable (p : PState) : Except PErr Unit × PState :=
  match pExpectCp 'b' p with
  | (.ok _, p1) => (.ok (), p1)
  | (.error _, p1) =>
  match pExpectCp 'f' p1 with
  | (.ok _, p2) => (.ok (), p2)
  | (.error _, p2) =>
  match pExpectCp 'n' p2 with
  | (.ok _, p3) => (.ok (), p3)
  | (.error _, p3) =>
  match pExpectCp 'r' p3 with
  | (.ok _, p4) => (.ok (), p4)
  | (.error _, p4) =>
  match pExpectCp 't' p4 with
  | (.ok _, p5) => (.ok (), p5)
  | (.error _, p5) =>
  match pExpectCp '/' p5 with
  | (.ok _, p6) => (.ok (), p6)
  | (.error _, p6) =>
  match pExpectCp '\x5C' p6 with
  | (.ok _, p7) => (.ok (), p7)
  | (.error _, p7) =>
  match pExpectCp 'u' p7 with
  | (.error e, p8) => (.error e, p8)
  | (.ok _, p8) => pHexChar p8

/-- `Parser.quotedDouble`. -/
def pQuotedDouble (p : PState) : Except PErr Unit × PState :=
  match pExpectBy isUnescapedCh p with
  | (.ok _, p1) => (.ok (), p1)
  | (.error _, p1) =>
  match pExpectCp '\x27' p1 with
  | (.ok _, p2) => (.ok (), p2)
  | (.error _, p2) =>
  match pExpectCp '\x5C' p2 with
  | (.error _, p3) => (.error (pErrHere p3), p3)
  | (.ok _, p3) =>
    match pExpectCp '"' p3 with
    | (.ok _, p4) => (.ok (), p4)
    | (.error _, p4) =>
      match pEscapable p4 with
      | (.ok _, p5) => (.ok (), p5)
      | (.error _, p5) => (.error (pErrHere p5), p5)

/-- `Parser.quotedSingle`. -/
def pQuotedSingle (p : PState) : Except PErr Unit × PState :=
  match pExpectBy isUnescapedCh p with
  | (.ok _, p1) => (.ok (), p1)
  | (.error _, p1) =>
  match pExpectCp '"' p1 with
  | (.ok _, p2) => (.ok (), p2)
  | (.error _, p2) =>
  match pExpectCp '\x5C' p2 with
  | (.error _, p3) => (.error (pErrHere p3), p3)
  | (.ok _, p3) =>
    match pExpectCp '\x27' p3 with
    | (.ok _, p4) => (.ok (), p4)
    | (.error _, p4) =>
      match pEscapable p4 with
      | (.ok _, p5) => (.ok (), p5)
      | (.error _, p5) => (.error (pErrHere p5), p5)

/-- The `for p.quotedDouble() == nil {}` / `for p.quotedSingle() == nil {}`
loops of `Parser.literalString`. -/
def pQuotedLoopF (q : PState → Except PErr Unit × PState) : Nat → PState → PState
  | 0, p => p
  | f + 1, p =>
    match q p with
    | (.ok _, p1) => pQuotedLoopF q f p1
    | (.error _, p1) => p1

/-- `Parser.literalString`: both quote styles; the returned string is the
raw codepoint span between the quotes (escape sequences are consumed but
not decoded). -/
def pLiteralString (p : PState) : Except PErr String × PState :=
  match pExpectCp '"' p with
  | (.ok _, p1) =>
    let start := p1.idx
    let p2 := pQuotedLoopF pQuotedDouble (p1.cps.length + 1 - p1.idx) p1
    match pExpectCp '"' p2 with
    | (.error e, p3) => (.error e, p3)
    | (.ok _, p3) =>
      (.ok (String.mk ((p3.cps.drop start).take (p3.idx - 1 - start))), p3)
  | (.error _, p1) =>
    match pExpectCp '\x27' p1 with
    | (.ok _, p2) =>
      let start := p2.idx
      let p3 := pQuotedLoopF pQuotedSingle (p2.cps.length + 1 - p2.idx) p2
      match pExpectCp '\x27' p3 with
      | (.error e, p4) => (.error e, p4)
      | (.ok _, p4) =>
        (.ok (String.mk ((p4.cps.drop start).take (p4.idx - 1 - start))), p4)
    | (.error _, p2) => (.error (pErrHere p2), p2)

/-- `Parser.literalTrue`. -/
def pLiteralTrue (p : PState) : Except PErr Unit × PState :=
  match pExpectCp 't' p with
  | (.error e, p1) => (.error e, p1)
  | (.ok _, p1) =>
  match pExpectCp 'r' p1 with
  | (.error e, p2) => (.error e, p2)
  | (.ok _, p2) =>
  match pExpectCp 'u' p2 with
  | (.error e, p3) => (.error e, p3)
  | (.ok _, p3) => pExpectCp 'e' p3

/-- `Parser.literalFalse`. -/
def pLiteralFalse (p : PState) : Except PErr Unit × PState :=
  match pExpectCp 'f' p with
  | (.error e, p1) => (.error e, p1)
  | (.ok _, p1) =>
  match pExpectCp 'a' p1 with
  | (.error e, p2) => (.error e, p2)
  | (.ok _, p2) =>
  match pExpectCp 'l' p2 with
  | (.error e, p3) => (.error e, p3)
  | (.ok _, p3) =>
  match pExpectCp 's' p3 with
  | (.error e, p4) => (.error e, p4)
  | (.ok _, p4) => pExpectCp 'e' p4

/-- `Parser.literalNull`. -/
def pLiteralNull (p : PState) : Except PErr Unit × PState :=
  match pExpectCp 'n' p with
  | (.error e, p1) => (.error e, p1)
  | (.ok _, p1) =>
  match pExpectCp 'u' p1 with
  | (.error e, p2) => (.error e, p2)
  | (.ok _, p2) =>
  match pExpectCp 'l' p2 with
  | (.error e, p3) => (.error e, p3)
  | (.ok _, p3) => pExpectCp 'l' p3

/-- `Parser.literal`: number, string, `true`, `false`, `null`, each
alternative starting from the state the failed previous alternative left
behind (the source saves no cursor here). -/
def pLiteral (p : PState) : Except PErr Value × PState :=
  match pLiteralNumber p with
  | (.ok n, p1) => (.ok (.num n), p1)
  | (.error _, p1) =>
  match pLiteralString p1 with
  | (.ok s, p2) => (.ok (.str s), p2)
  | (.error _, p2) =>
  match pLiteralTrue p2 with
  | (.ok _, p3) => (.ok (.bool true), p3)
  | (.error _, p3) =>
  match pLiteralFalse p3 with
  | (.ok _, p4) => (.ok (.bool false), p4)
  | (.error _, p4) =>
  match pLiteralNull p4 with
  | (.ok _, p5) => (.ok .null, p5)
  | (.error _, p5) => (.error (pErrHere p5), p5)

/-- `Parser.identRootNode`. -/
def pIdentRootNode (p : PState) : Except PErr Unit × PState := pExpectCp '$' p

/-- `Parser.identCurrNode`. -/
def pIdentCurrNode (p : PState) : Except PErr Unit × PState := pExpectCp '@' p

/-- `Parser.memberNameShorthand`: the raw span from `start` over one
name-first codepoint and any name-chars. -/
def pMemberNameShorthand (p : PState) : Except PErr String × PState :=
  let start := p.idx
  match pExpectBy isNameFirstCh p with
  | (.error e, p1) => (.error e, p1)
  | (.ok _, p1) =>
    let p2 := pQuotedLoopF (pExpectBy isNameCharCh) (p1.cps.length + 1 - p1.idx) p1
    (.ok (String.mk ((p2.cps.drop start).take (p2.idx - start))), p2)

/-- `Parser.functionNameChar`: lowercase letter, underscore, or digit. -/
def pFunctionNameChar (p : PState) : Except PErr Unit × PState :=
  match pExpectBy isAlphaLowercaseCh p with
  | (.ok _, p1) => (.ok (), p1)
  | (.error _, p1) =>
  match pExpectCp '_' p1 with
  | (.ok _, p2) => (.ok (), p2)
  | (.error _, p2) =>
  match pExpectBy isDigitCh p2 with
  | (.ok _, p3) => (.ok (), p3)
  | (.error _, p3) => (.error (pErrHere p3), p3)

/-- `Parser.functionName`: the raw span over `functionNameFirst`
(a lowercase letter) and any `functionNameChar`s. -/
def pFunctionName (p : PState) : Except PErr String × PState :=
  let start := p.idx
  match pExpectBy isAlphaLowercaseCh p with
  | (.error e, p1) => (.error e, p1)
  | (.ok _, p1) =>
    let p2 := pQuotedLoopF pFunctionNameChar (p1.cps.length + 1 - p1.idx) p1
    (.ok (String.mk ((p2.cps.drop start).take (p2.idx - start))), p2)

/-- `Parser.not`. -/
def pNot (p : PState) : Except PErr Unit × PState := pExpectCp '!' p

/-- `Parser.and`: the two runes of `grammar.And`. -/
def pAnd (p : PState) : Except PErr Unit × PState :=
  match pExpectCp '&' p with
  | (.error e, p1) => (.error e, p1)
  | (.ok _, p1) => pExpectCp '&' p1

/-- `Parser.or`: the two runes of `grammar.Or`. -/
def pOr (p : PState) : Except PErr Unit × PState :=
  match pExpectCp '|' p with
  | (.error e, p1) => (.error e, p1)
  | (.ok _, p1) => pExpectCp '|' p1

/-- `Parser.comparisonOp`, returning the chosen comparison function as a
`CmpOp` tag. -/
def pComparisonOp (p : PState) : Except PErr CmpOp × PState :=
  match pExpectCp '=' p with
  | (.ok _, p1) =>
    (match pExpectCp '=' p1 with
    | (.error e, p2) => (.error e, p2)
    | (.ok _, p2) => (.ok .eq, p2))
  | (.error _, p1) =>
  match pExpectCp '!' p1 with
  | (.ok _, p2) =>
    (match pExpectCp '=' p2 with
    | (.error e, p3) => (.error e, p3)
    | (.ok _, p3) => (.ok .ne, p3))
  | (.error _, p2) =>
  match pExpectCp '<' p2 with
  | (.ok _, p3) =>
    (match pExpectCp '=' p3 with
    | (.ok _, p4) => (.ok .lte, p4)
    | (.error _, p4) => (.ok .lt, p4))
  | (.error _, p3) =>
  match pExpectCp '>' p3 with
  | (.ok _, p4) =>
    (match pExpectCp '=' p4 with
    | (.ok _, p5) => (.ok .gte, p5)
    | (.error _, p5) => (.ok .gt, p5))
  | (.error _, p4) => (.error (pErrHere p4), p4)

/-- `Parser.selectorWildcard`. -/
def pSelectorWildcard (p : PState) : Except PErr Expr × PState :=
  match pExpectCp '*' p with
  | (.error e, p1) => (.error e, p1)
  | (.ok _, p1) => (.ok .selectorWildcard, p1)

/-- `Parser.selectorIndex`. -/
def pSelectorIndex (p : PState) : Except PErr Expr × PState :=
  match pInt p with
  | (.error e, p1) => (.error e, p1)
  | (.ok n, p1) => (.ok (.selectorIndex n), p1)

/-- `Parser.selectorSlice`: optional start, `:`, optional end, optional
`:` step (defaulting to 1); blank space exactly where the source skips it. -/
def pSelectorSlice (p : PState) : Except PErr Expr × PState :=
  let sp1 :=
    match pInt p with
    | (.ok s, q) => (some s, blankSpace q)
    | (.error _, q) => (none, q)
  match pExpectCp ':' sp1.2 with
  | (.error e, p2) => (.error e, p2)
  | (.ok _, p2) =>
    let p3 := blankSpace p2
    let ep4 :=
      match pInt p3 with
      | (.ok e, q) => (some e, blankSpace q)
      | (.error _, q) => (none, q)
    match pExpectCp ':' ep4.2 with
    | (.ok _, p5) =>
      let p6 := if pMatchBy isBlankSpace p5 then blankSpace p5 else p5
      (match pInt p6 with
      | (.ok s, p7) => (.ok (.selectorSlice sp1.1 ep4.1 s), p7)
      | (.error _, p7) => (.ok (.selectorSlice sp1.1 ep4.1 1), p7))
    | (.error _, p5) => (.ok (.selectorSlice sp1.1 ep4.1 1), p5)

/-- `Parser.segmentName` (the `ExprSingle` singular-segment form):
`[` name-selector `]`, or `.` shorthand. -/
def pSegmentName (p : PState) : Except PErr ExprS × PState :=
  match pExpectCp '[' p with
  | (.ok _, p1) =>
    (match pLiteralString p1 with
    | (.error e, p2) => (.error e, p2)
    | (.ok s, p2) =>
      match pExpectCp ']' p2 with
      | (.error e, p3) => (.error e, p3)
      | (.ok _, p3) => (.ok (.segmentName s), p3))
  | (.error _, p1) =>
    match pExpectCp '.' p1 with
    | (.ok _, p2) =>
      (match pMemberNameShorthand p2 with
      | (.error e, p3) => (.error e, p3)
      | (.ok n, p3) => (.ok (.segmentName n), p3))
    | (.error _, p2) => (.error (pErrHere p2), p2)

/-- `Parser.segmentIndex`: `[` int `]`. -/
def pSegmentIndex (p : PState) : Except PErr ExprS × PState :=
  match pExpectCp '[' p with
  | (.error e, p1) => (.error e, p1)
  | (.ok _, p1) =>
  match pInt p1 with
  | (.error e, p2) => (.error e, p2)
  | (.ok n, p2) =>
  match pExpectCp ']' p2 with
  | (.error e, p3) => (.error e, p3)
  | (.ok _, p3) => (.ok (.segmentIndex n), p3)

/-- The loop of `Parser.querySingularSegments`: this loop does save and
restore `initial` around each alternative. -/
def pQuerySingularSegsF : Nat → PState → Except PErr (List ExprS) × PState
  | 0, p => (.error .outOfFuel, p)
  | f + 1, p =>
    let p1 := if pMatchBy isBlankSpace p then blankSpace p else p
    let initial := p1.idx
    match pSegmentName p1 with
    | (.ok e, p2) =>
      (match pQuerySingularSegsF f p2 with
      | (.error er, p3) => (.error er, p3)
      | (.ok rest, p3) => (.ok (e :: rest), p3))
    | (.error _, p2) =>
      match pSegmentIndex { p2 with idx := initial } with
      | (.ok e, p3) =>
        (match pQuerySingularSegsF f p3 with
        | (.error er, p4) => (.error er, p4)
        | (.ok rest, p4) => (.ok (e :: rest), p4))
      | (.error _, p3) => (.ok [], { p3 with idx := initial })

/-- `Parser.querySingularSegments`. -/
def pQuerySingularSegs (p : PState) : Except PErr (List ExprS) × PState :=
  pQuerySingularSegsF (p.cps.length + 1 - p.idx) p

/-- `Parser.querySingularRel`: `@` then singular segments. -/
def pQuerySingularRel (p : PState) : Except PErr ExprS × PState :=
  match pIdentCurrNode p with
  | (.error e, p1) => (.error e, p1)
  | (.ok _, p1) =>
  match pQuerySingularSegs p1 with
  | (.error e, p2) => (.error e, p2)
  | (.ok segs, p2) => (.ok (.querySingularRel segs), p2)

/-- `Parser.querySingularAbs`: `$` then singular segments. -/
def pQuerySingularAbs (p : PState) : Except PErr ExprS × PState :=
  match pIdentRootNode p with
  | (.error e, p1) => (.error e, p1)
  | (.ok _, p1) =>
  match pQuerySingularSegs p1 with
  | (.error e, p2) => (.error e, p2)
  | (.ok segs, p2) => (.ok (.querySingularAbs segs), p2)

/-- `Parser.querySingular`: relative, else absolute from the state the
failed relative attempt left behind (no cursor save here). -/
def pQuerySingular (p : PState) : Except PErr ExprS × PState :=
  match pQuerySingularRel p with
  | (.ok e, p1) => (.ok e, p1)
  | (.error _, p1) =>
    match pQuerySingularAbs p1 with
    | (.ok e, p2) => (.ok e, p2)
    | (.error _, p2) => (.error (pErrHere p2), p2)

/-- `generateFunc`: name dispatch, arity checks (`match`/`search` report
`Expected: 1` even though they require 2, as the source does), the
string-literal requirement on the second argument of `match`/`search`, and
the parse-time `regexp.Compile` modelled by the compilability predicate
`rc` on the pattern source. -/
def generateFunc (rc : String → Bool) (name : String) (args : List Expr) :
    Except PErr Expr :=
  if name = "length" then
    match args with
    | [a] => .ok (.funcLength a)
    | _ => .error (.wrongArgCount name 1 args.length)
  else if name = "count" then
    match args with
    | [a] => .ok (.funcCount a)
    | _ => .error (.wrongArgCount name 1 args.length)
  else if name = "match" then
    match args with
    | [_, .literalE (.str s)] =>
      if rc s then .ok (.funcMatch s) else .error (.regexInvalid s)
    | [_, _] => .error (.wrongArgType name 1)
    | _ => .error (.wrongArgCount name 1 args.length)
  else if name = "search" then
    match args with
    | [_, .literalE (.str s)] =>
      if rc s then .ok (.funcSearch s) else .error (.regexInvalid s)
    | [_, _] => .error (.wrongArgType name 1)
    | _ => .error (.wrongArgCount name 1 args.length)
  else if name = "value" then
    match args with
    | [a] => .ok (.funcValue a)
    | _ => .error (.wrongArgCount name 1 args.length)
  else .error (.unsupportedFunction name)

/-- The tail of `Parser.functionExpr` after the argument loop: blank space,
`)`, then `generateFunc`. -/
def pFuncClose (rc : String → Bool) (name : String) (args : List Expr)
    (p : PState) : Except PErr Expr × PState :=
  let p1 := blankSpace p
  match pExpectCp ')' p1 with
  | (.error e, p2) => (.error e, p2)
  | (.ok _, p2) =>
    match generateFunc rc name args with
    | .error e => (.error e, p2)
    | .ok e => (.ok e, p2)

mutual

/-- `Parser.queryJSONPath` (also `Parser.Parse`): `$` then segments. -/
def queryJSONPathF (rc : String → Bool) :
    Nat → PState → Except PErr Expr × PState
  | 0, p => (.error .outOfFuel, p)
  | f + 1, p =>
    match pIdentRootNode p with
    | (.error e, p1) => (.error e, p1)
    | (.ok _, p1) =>
      match segmentsF rc f p1 with
      | (.error e, p2) => (.error e, p2)
      | (.ok segs, p2) => (.ok (.queryJSONPath segs), p2)

/-- The loop of `Parser.segments`: save `initial`, try a segment, restore
and stop on failure. -/
def segmentsF (rc : String → Bool) :
    Nat → PState → Except PErr (List Expr) × PState
  | 0, p => (.error .outOfFuel, p)
  | f + 1, p =>
    let p1 := if pMatchBy isBlankSpace p then blankSpace p else p
    let initial := p1.idx
    match segmentF rc f p1 with
    | (.error _, p2) => (.ok [], { p2 with idx := initial })
    | (.ok s, p2) =>
      match segmentsF rc f p2 with
      | (.error e, p3) => (.error e, p3)
      | (.ok rest, p3) => (.ok (s :: rest), p3)

/-- `Parser.segment`: child, else descendant from the restored cursor. -/
def segmentF (rc : String → Bool) :
    Nat → PState → Except PErr Expr × PState
  | 0, p => (.error .outOfFuel, p)
  | f + 1, p =>
    let initial := p.idx
    match segmentChildF rc f p with
    | (.ok s, p1) => (.ok s, p1)
    | (.error _, p1) => segmentDescendantF rc f { p1 with idx := initial }

/-- `Parser.segmentChild`: a bracketed selection, else (from wherever the
failed bracketed attempt stopped — no restore here) `.` followed by a
wildcard (returned bare, not wrapped in a child segment, as the source
does) or a member-name shorthand. -/
def segmentChildF (rc : String → Bool) :
    Nat → PState → Except PErr Expr × PState
  | 0, p => (.error .outOfFuel, p)
  | f + 1, p =>
    match bracketedSelectionF rc f p with
    | (.ok b, p1) => (.ok (.segmentChild b), p1)
    | (.error _, p1) =>
      match pExpectCp '.' p1 with
      | (.error e, p2) => (.error e, p2)
      | (.ok _, p2) =>
        match pSelectorWildcard p2 with
        | (.ok w, p3) => (.ok w, p3)
        | (.error _, p3) =>
          match pMemberNameShorthand p3 with
          | (.ok n, p4) => (.ok (.segmentChild [.selectorName n]), p4)
          | (.error _, p4) => (.error (pErrHere p4), p4)

/-- `Parser.segmentDescendant`: `..` then a bracketed selection, a
wildcard, or a shorthand name. -/
def segmentDescendantF (rc : String → Bool) :
    Nat → PState → Except PErr Expr × PState
  | 0, p => (.error .outOfFuel, p)
  | f + 1, p =>
    match pExpectCp '.' p with
    | (.error e, p1) => (.error e, p1)
    | (.ok _, p1) =>
    match pExpectCp '.' p1 with
    | (.error e, p2) => (.error e, p2)
    | (.ok _, p2) =>
      match bracketedSelectionF rc f p2 with
      | (.ok s, p3) => (.ok (.segmentDescendant s), p3)
      | (.error _, p3) =>
        match pSelectorWildcard p3 with
        | (.ok s, p4) => (.ok (.segmentDescendant [s]), p4)
        | (.error _, p4) =>
          match pMemberNameShorthand p4 with
          | (.ok n, p5) => (.ok (.segmentDescendant [.selectorName n]), p5)
          | (.error _, p5) => (.error (pErrHere p5), p5)

/-- `Parser.bracketedSelection`: `[`, blank space, first selector, the
comma loop, blank space, `]`. -/
def bracketedSelectionF (rc : String → Bool) :
    Nat → PState → Except PErr (List Expr) × PState
  | 0, p => (.error .outOfFuel, p)
  | f + 1, p =>
    match pExpectCp '[' p with
    | (.error e, p1) => (.error e, p1)
    | (.ok _, p1) =>
      let p2 := blankSpace p1
      match selectorF rc f p2 with
      | (.error e, p3) => (.error e, p3)
      | (.ok s, p3) =>
        match bracketedLoopF rc f p3 with
        | (.error e, p4) => (.error e, p4)
        | (.ok rest, p4) =>
          let p5 := blankSpace p4
          match pExpectCp ']' p5 with
          | (.error e, p6) => (.error e, p6)
          | (.ok _, p6) => (.ok (s :: rest), p6)

/-- The comma loop of `Parser.bracketedSelection`: a failed comma breaks
(a failed `expect` moves nothing); a comma followed by a failed selector
aborts the whole selection. -/
def bracketedLoopF (rc : String → Bool) :
    Nat → PState → Except PErr (List Expr) × PState
  | 0, p => (.error .outOfFuel, p)
  | f + 1, p =>
    let p1 := if pMatchBy isBlankSpace p then blankSpace p else p
    match pExpectCp ',' p1 with
    | (.error _, p2) => (.ok [], p2)
    | (.ok _, p2) =>
      let p3 := blankSpace p2
      match selectorF rc f p3 with
      | (.error e, p4) => (.error e, p4)
      | (.ok s, p4) =>
        match bracketedLoopF rc f p4 with
        | (.error e, p5) => (.error e, p5)
        | (.ok rest, p5) => (.ok (s :: rest), p5)

/-- `Parser.selector`: dispatch on the current codepoint — quote → name,
`*` → wildcard, digit/`-`/`:` → slice else index (with cursor restore),
otherwise filter. -/
def selectorF (rc : String → Bool) :
    Nat → PState → Except PErr Expr × PState
  | 0, p => (.error .outOfFuel, p)
  | f + 1, p =>
    if pMatchBy isQuoteCh p then
      match pLiteralString p with
      | (.error e, p1) => (.error e, p1)
      | (.ok s, p1) => (.ok (.selectorName s), p1)
    else if pMatchCp '*' p then
      pSelectorWildcard p
    else if pMatchBy (fun r => isDigitCh r || r == '-' || r == ':') p then
      let initial := p.idx
      match pSelectorSlice p with
      | (.ok s, p1) => (.ok s, p1)
      | (.error _, p1) => pSelectorIndex { p1 with idx := initial }
    else
      selectorFilterF rc f p

/-- `Parser.selectorFilter`: `?`, blank space, then the logical expression
returned directly (the source wraps it in no dedicated filter node). -/
def selectorFilterF (rc : String → Bool) :
    Nat → PState → Except PErr Expr × PState
  | 0, p => (.error .outOfFuel, p)
  | f + 1, p =>
    match pExpectCp '?' p with
    | (.error e, p1) => (.error e, p1)
    | (.ok _, p1) => logicalOrF rc f (blankSpace p1)

/-- `Parser.logicalExprOr` (also `Parser.logicalExpr`). -/
def logicalOrF (rc : String → Bool) :
    Nat → PState → Except PErr Expr × PState
  | 0, p => (.error .outOfFuel, p)
  | f + 1, p =>
    match logicalAndF rc f p with
    | (.error e, p1) => (.error e, p1)
    | (.ok e, p1) =>
      match orLoopF rc f p1 with
      | (.error er, p2) => (.error er, p2)
      | (.ok rest, p2) => (.ok (.exprLogicalOr (e :: rest)), p2)

/-- The `||` loop of `Parser.logicalExprOr`: save `initial`, try `||`,
restore and stop on failure; a failed right operand aborts. -/
def orLoopF (rc : String → Bool) :
    Nat → PState → Except PErr (List Expr) × PState
  | 0, p => (.error .outOfFuel, p)
  | f + 1, p =>
    let p1 := if pMatchBy isBlankSpace p then blankSpace p else p
    let initial := p1.idx
    match pOr p1 with
    | (.error _, p2) => (.ok [], { p2 with idx := initial })
    | (.ok _, p2) =>
      let p3 := blankSpace p2
      match logicalAndF rc f p3 with
      | (.error e, p4) => (.error e, p4)
      | (.ok e, p4) =>
        match orLoopF rc f p4 with
        | (.error er, p5) => (.error er, p5)
        | (.ok rest, p5) => (.ok (e :: rest), p5)

/-- `Parser.logicalExprAnd`. -/
def logicalAndF (rc : String → Bool) :
    Nat → PState → Except PErr Expr × PState
  | 0, p => (.error .outOfFuel, p)
  | f + 1, p =>
    match basicExprF rc f p with
    | (.error e, p1) => (.error e, p1)
    | (.ok e, p1) =>
      match andLoopF rc f p1 with
      | (.error er, p2) => (.error er, p2)
      | (.ok rest, p2) => (.ok (.exprLogicalAnd (e :: rest)), p2)

/-- The `&&` loop of `Parser.logicalExprAnd`. -/
def andLoopF (rc : String → Bool) :
    Nat → PState → Except PErr (List Expr) × PState
  | 0, p => (.error .outOfFuel, p)
  | f + 1, p =>
    let p1 := if pMatchBy isBlankSpace p then blankSpace p else p
    let initial := p1.idx
    match pAnd p1 with
    | (.error _, p2) => (.ok [], { p2 with idx := initial })
    | (.ok _, p2) =>
      let p3 := blankSpace p2
      match basicExprF rc f p3 with
      | (.error e, p4) => (.error e, p4)
      | (.ok e, p4) =>
        match andLoopF rc f p4 with
        | (.error er, p5) => (.error er, p5)
        | (.ok rest, p5) => (.ok (e :: rest), p5)

/-- `Parser.basicExpr`: paren, comparison, test — each alternative from
the restored cursor (this choice point does save and restore). -/
def basicExprF (rc : String → Bool) :
    Nat → PState → Except PErr Expr × PState
  | 0, p => (.error .outOfFuel, p)
  | f + 1, p =>
    let initial := p.idx
    match parenExprF rc f p with
    | (.ok e, p1) => (.ok e, p1)
    | (.error _, p1) =>
      match comparisonExprF rc f { p1 with idx := initial } with
      | (.ok e, p2) => (.ok e, p2)
      | (.error _, p2) => testExprF rc f { p2 with idx := initial }

/-- `Parser.parenExpr`: optional `!`, blank space, `( logicalExpr )`,
wrapped in `ExprParen` and possibly `ExprLogicalNot`. -/
def parenExprF (rc : String → Bool) :
    Nat → PState → Except PErr Expr × PState
  | 0, p => (.error .outOfFuel, p)
  | f + 1, p =>
    match pNot p with
    | (.ok _, p0) => parenTailF rc true f p0
    | (.error _, p0) => parenTailF rc false f p0

/-- The body of `Parser.parenExpr` after the optional `!`. -/
def parenTailF (rc : String → Bool) (isNegated : Bool) :
    Nat → PState → Except PErr Expr × PState
  | 0, p => (.error .outOfFuel, p)
  | f + 1, p =>
    let p1 := blankSpace p
    match pExpectCp '(' p1 with
    | (.error e, p2) => (.error e, p2)
    | (.ok _, p2) =>
      let p3 := blankSpace p2
      match logicalOrF rc f p3 with
      | (.error e, p4) => (.error e, p4)
      | (.ok e, p4) =>
        let p5 := blankSpace p4
        match pExpectCp ')' p5 with
        | (.error er, p6) => (.error er, p6)
        | (.ok _, p6) =>
          let expr := Expr.exprParen e
          (.ok (if isNegated then .exprLogicalNot expr else expr), p6)

/-- `Parser.comparisonExpr`: comparable, blank space, op, blank space,
comparable. -/
def comparisonExprF (rc : String → Bool) :
    Nat → PState → Except PErr Expr × PState
  | 0, p => (.error .outOfFuel, p)
  | f + 1, p =>
    match comparableF rc f p with
    | (.error e, p1) => (.error e, p1)
    | (.ok l, p1) =>
      let p2 := blankSpace p1
      match pComparisonOp p2 with
      | (.error e, p3) => (.error e, p3)
      | (.ok op, p3) =>
        let p4 := blankSpace p3
        match comparableF rc f p4 with
        | (.error e, p5) => (.error e, p5)
        | (.ok r, p5) => (.ok (.exprComparison l r op), p5)

/-- `Parser.comparable`: literal, singular query, function expression —
each alternative continuing from the state the previous one left behind
(this choice point saves no cursor).  The `ast.ExprSingle` cast on the
function result always succeeds (every `Func*` has an `EvaluateSingle`
method), landing in the payload-free `ExprS.funcSingle`. -/
def comparableF (rc : String → Bool) :
    Nat → PState → Except PErr ExprS × PState
  | 0, p => (.error .outOfFuel, p)
  | f + 1, p =>
    match pLiteral p with
    | (.ok v, p1) => (.ok (.literal v), p1)
    | (.error _, p1) =>
      match pQuerySingular p1 with
      | (.ok e, p2) => (.ok e, p2)
      | (.error _, p2) =>
        match functionExprF rc f p2 with
        | (.ok _, p3) => (.ok .funcSingle, p3)
        | (.error _, p3) => (.error (pErrHere p3), p3)

/-- `Parser.testExpr`: optional `!` (with blank space), then a filter
query or a function expression, negation wrapping the result. -/
def testExprF (rc : String → Bool) :
    Nat → PState → Except PErr Expr × PState
  | 0, p => (.error .outOfFuel, p)
  | f + 1, p =>
    match pNot p with
    | (.ok _, p1) => testTailF rc true f (blankSpace p1)
    | (.error _, p1) => testTailF rc false f p1

/-- The body of `Parser.testExpr` after the optional `!`. -/
def testTailF (rc : String → Bool) (isNegated : Bool) :
    Nat → PState → Except PErr Expr × PState
  | 0, p => (.error .outOfFuel, p)
  | f + 1, p =>
    match queryFilterF rc f p with
    | (.ok e, p1) => (.ok (if isNegated then .exprLogicalNot e else e), p1)
    | (.error _, p1) =>
      match functionExprF rc f p1 with
      | (.error e, p2) => (.error e, p2)
      | (.ok fe, p2) => (.ok (if isNegated then .exprLogicalNot fe else fe), p2)

/-- `Parser.queryFilter`: relative query, else a JSONPath query from the
state the failed relative attempt left behind. -/
def queryFilterF (rc : String → Bool) :
    Nat → PState → Except PErr Expr × PState
  | 0, p => (.error .outOfFuel, p)
  | f + 1, p =>
    match queryRelF rc f p with
    | (.ok e, p1) => (.ok e, p1)
    | (.error _, p1) =>
      match queryJSONPathF rc f p1 with
      | (.ok e, p2) => (.ok e, p2)
      | (.error _, p2) => (.error (pErrHere p2), p2)

/-- `Parser.queryRel`: `@` then segments. -/
def queryRelF (rc : String → Bool) :
    Nat → PState → Except PErr Expr × PState
  | 0, p => (.error .outOfFuel, p)
  | f + 1, p =>
    match pIdentCurrNode p with
    | (.error e, p1) => (.error e, p1)
    | (.ok _, p1) =>
      match segmentsF rc f p1 with
      | (.error e, p2) => (.error e, p2)
      | (.ok segs, p2) => (.ok (.queryRel segs), p2)

/-- `Parser.functionExpr`: name, the `isSupportedFunc` gate, `(`, blank
space, optional first argument and comma loop, blank space, `)`, then
`generateFunc`. -/
def functionExprF (rc : String → Bool) :
    Nat → PState → Except PErr Expr × PState
  | 0, p => (.error .outOfFuel, p)
  | f + 1, p =>
    match pFunctionName p with
    | (.error e, p1) => (.error e, p1)
    | (.ok name, p1) =>
      if isSupportedFunc name then
        match pExpectCp '(' p1 with
        | (.error e, p2) => (.error e, p2)
        | (.ok _, p2) =>
          let p3 := blankSpace p2
          match functionArgumentF rc f p3 with
          | (.error _, p4) => pFuncClose rc name [] p4
          | (.ok a, p4) =>
            match funcArgsLoopF rc f p4 with
            | (.error e, p5) => (.error e, p5)
            | (.ok rest, p5) => pFuncClose rc name (a :: rest) p5
      else (.error (.unsupportedFunction name), p1)

/-- The comma loop of `Parser.functionExpr`: a failed comma breaks; a
comma followed by a failed argument aborts. -/
def funcArgsLoopF (rc : String → Bool) :
    Nat → PState → Except PErr (List Expr) × PState
  | 0, p => (.error .outOfFuel, p)
  | f + 1, p =>
    let p1 := if pMatchBy isBlankSpace p then blankSpace p else p
    match pExpectCp ',' p1 with
    | (.error _, p2) => (.ok [], p2)
    | (.ok _, p2) =>
      let p3 := blankSpace p2
      match functionArgumentF rc f p3 with
      | (.error e, p4) => (.error e, p4)
      | (.ok a, p4) =>
        match funcArgsLoopF rc f p4 with
        | (.error e, p5) => (.error e, p5)
        | (.ok rest, p5) => (.ok (a :: rest), p5)

/-- `Parser.functionArgument`: literal, filter selector, logical
expression, function expression — each from the state the previous failed
attempt left behind (no cursor save). -/
def functionArgumentF (rc : String → Bool) :
    Nat → PState → Except PErr Expr × PState
  | 0, p => (.error .outOfFuel, p)
  | f + 1, p =>
    match pLiteral p with
    | (.ok v, p1) => (.ok (.literalE v), p1)
    | (.error _, p1) =>
      match selectorFilterF rc f p1 with
      | (.ok e, p2) => (.ok e, p2)
      | (.error _, p2) =>
        match logicalOrF rc f p2 with
        | (.ok e, p3) => (.ok e, p3)
        | (.error _, p3) => functionExprF rc f p3

end

/-- `Parser.Parse` on the codepoints of a query (`parser.New` keeps the
runes; `Parse` is `queryJSONPath`). -/
def pParse (rc : String → Bool) (fuel : Nat) (q : List Char) :
    Except PErr Expr × PState :=
  queryJSONPathF rc fuel { cps := q, idx := 0 }

/-! ## Claims C8, C9, C10 (parser) -/

/-- **C8**: the claim that every failed alternative restores the cursor
before the next alternative is tried is false at `Parser.literal` /
`Parser.literalNumber`: on input `-0`, the `int` alternative consumes the
minus sign and fails, the cursor is left at index 1, and the
`negativeZero` alternative — which accepts `-0` from the saved index 0 —
is run from index 1 and fails, so the literal (and with it any query
containing `-0`) is rejected. -/
theorem c8_literal_cursor_not_restored :
    (∃ e, (pInt { cps := ['-', '0'], idx := 0 }).1 = Except.error e)
    ∧ (pInt { cps := ['-', '0'], idx := 0 }).2.idx = 1
    ∧ pNegativeZero { cps := ['-', '0'], idx := 0 }
        = (Except.ok (), { cps := ['-', '0'], idx := 2 })
    ∧ (∃ e, (pLiteralNumber { cps := ['-', '0'], idx := 0 }).1 = Except.error e)
    ∧ (∃ e, (pLiteral { cps := ['-', '0'], idx := 0 }).1 = Except.error e) :=
  ⟨⟨_, rfl⟩, rfl, rfl, ⟨_, rfl⟩, ⟨_, rfl⟩⟩

/-- **C9**: `functionExpr` accepts exactly the five built-in function
names (any other name parsed by `functionName` is an
`ErrUnsupportedFunction` parse error raised before any argument is read);
`generateFunc` enforces each arity at parse time; the second argument of
`match`/`search` must be a string literal, whose pattern is compiled at
parse time (`rc` models `regexp.Compile` succeeding), a compile failure
being a parse error; and each of the five names is accepted on a
well-formed call. -/
theorem c9_function_gate_arity_regex :
    (∀ name, isSupportedFunc name = true ↔
      name = "length" ∨ name = "count" ∨ name = "match" ∨ name = "search" ∨
        name = "value")
    ∧ (∀ (rc : String → Bool) (f : Nat) (p p1 : PState) (name : String),
        pFunctionName p = (Except.ok name, p1) → isSupportedFunc name = false →
        functionExprF rc (f + 1) p = (Except.error (.unsupportedFunction name), p1))
    ∧ (∀ (rc : String → Bool) (args : List Expr), args.length ≠ 1 →
        generateFunc rc "length" args
            = Except.error (.wrongArgCount "length" 1 args.length)
        ∧ generateFunc rc "count" args
            = Except.error (.wrongArgCount "count" 1 args.length)
        ∧ generateFunc rc "value" args
            = Except.error (.wrongArgCount "value" 1 args.length))
    ∧ (∀ (rc : String → Bool) (args : List Expr), args.length ≠ 2 →
        generateFunc rc "match" args
            = Except.error (.wrongArgCount "match" 1 args.length)
        ∧ generateFunc rc "search" args
            = Except.error (.wrongArgCount "search" 1 args.length))
    ∧ (∀ (rc : String → Bool) (a b : Expr),
        (∀ s, b ≠ Expr.literalE (Value.str s)) →
        generateFunc rc "match" [a, b] = Except.error (.wrongArgType "match" 1)
        ∧ generateFunc rc "search" [a, b] = Except.error (.wrongArgType "search" 1))
    ∧ (∀ (rc : String → Bool) (a : Expr) (s : String),
        generateFunc rc "match" [a, Expr.literalE (Value.str s)]
            = (if rc s then Except.ok (Expr.funcMatch s)
               else Except.error (.regexInvalid s))
        ∧ generateFunc rc "search" [a, Expr.literalE (Value.str s)]
            = (if rc s then Except.ok (Expr.funcSearch s)
               else Except.error (.regexInvalid s)))
    ∧ ((functionExprF (fun _ => true) 10
          { cps := String.data "length(\x22x\x22)", idx := 0 }).1
        = Except.ok (.funcLength (.literalE (.str "x")))
      ∧ (functionExprF (fun _ => true) 10
          { cps := String.data "count(\x22x\x22)", idx := 0 }).1
        = Except.ok (.funcCount (.literalE (.str "x")))
      ∧ (functionExprF (fun _ => true) 10
          { cps := String.data "value(\x22x\x22)", idx := 0 }).1
        = Except.ok (.funcValue (.literalE (.str "x")))
      ∧ (functionExprF (fun _ => true) 10
          { cps := String.data "match(\x22x\x22,\x22y\x22)", idx := 0 }).1
        = Except.ok (.funcMatch "y")
      ∧ (functionExprF (fun _ => true) 10
          { cps := String.data "search(\x22x\x22,\x22y\x22)", idx := 0 }).1
        = Except.ok (.funcSearch "y")) := by
  refine ⟨?_, ?_, ?_, ?_, ?_, ?_, rfl, rfl, rfl, rfl, rfl⟩
  · intro name
    simp only [isSupportedFunc, Bool.or_eq_true, beq_iff_eq]
    tauto
  · intro rc f p p1 name h hgate
    simp only [functionExprF, h, hgate, Bool.false_eq_true, if_false]
  · intro rc args h
    rcases args with _ | ⟨a, _ | ⟨b, t⟩⟩
    · exact ⟨rfl, rfl, rfl⟩
    · exact absurd rfl h
    · exact ⟨rfl, rfl, rfl⟩
  · intro rc args h
    rcases args with _ | ⟨a, _ | ⟨b, _ | ⟨c, t⟩⟩⟩
    · exact ⟨rfl, rfl⟩
    · exact ⟨rfl, rfl⟩
    · exact absurd rfl h
    · refine ⟨?_, ?_⟩ <;>
        (rcases b with _ | _ | _ | _ | _ | _ | _ | _ | _ | _ | _ | _ | _ | v |
          _ | _ | _ | _ | _ | _ <;>
          first
            | rfl
            | (rcases v with _ | s | _ | _ | _ | _ <;> rfl))
  · intro rc a b h
    rcases b with _ | _ | _ | _ | _ | _ | _ | _ | _ | _ | _ | _ | _ | v | _ | _ | _ | _ | _ | _
    case literalE =>
      rcases v with _ | s | _ | _ | _ | _
      case str => exact absurd rfl (h s)
      all_goals exact ⟨rfl, rfl⟩
    all_goals exact ⟨rfl, rfl⟩
  · intro rc a s
    exact ⟨rfl, rfl⟩

/-- The function-name gate of **C9** at a concrete input: the name `foo`
is rejected as `ErrUnsupportedFunction`; `generateFunc` rejects a
zero-argument `length` call and a `match` whose second argument is not a
string literal. -/
theorem c9_function_gate_witness :
    functionExprF (fun _ => true) 1 { cps := String.data "foo()", idx := 0 }
      = (Except.error (.unsupportedFunction "foo"),
         { cps := String.data "foo()", idx := 3 })
    ∧ generateFunc (fun _ => true) "length" []
      = Except.error (.wrongArgCount "length" 1 0)
    ∧ generateFunc (fun _ => true) "match" [.literalE .null, .literalE .null]
      = Except.error (.wrongArgType "match" 1) :=
  ⟨c9_function_gate_arity_regex.2.1 (fun _ => true) 0 _ _ "foo" rfl rfl,
   (c9_function_gate_arity_regex.2.2.1 (fun _ => true) [] (by decide)).1,
   (c9_function_gate_arity_regex.2.2.2.2.1 (fun _ => true) _ _
      (fun s h => by simp at h)).1⟩

/-- **C10** counterexample: the query `$['b"]["c']` is parseable (the
single-quoted string admits a raw `"` and the parser stores the raw span),
its evaluation over the object `{"b\"][\"c": 1, "b": {"c": 2}}` emits a
node with location `$["b"]["c"]` and value `1`, but resolving that
location against the root yields `2`: the emitted location collides with
the normalized path of a different value, refuting the location invariant
for verbatim-rendered keys. -/
theorem c10_location_counterexample :
    (pParse (fun _ => true) 20
        (['$', '['] ++ [Char.ofNat 39, 'b', '"', ']', '[', '"', 'c',
          Char.ofNat 39, ']'])).1
      = Except.ok (Expr.queryJSONPath [.segmentChild [.selectorName "b\"][\"c"]])
    ∧ (pParse (fun _ => true) 20
        (['$', '['] ++ [Char.ofNat 39, 'b', '"', ']', '[', '"', 'c',
          Char.ofNat 39, ']'])).2.idx = 11
    ∧ evalExpr (Expr.queryJSONPath [.segmentChild [.selectorName "b\"][\"c"]])
        [⟨"$", Value.obj [("b\"][\"c", vnum 1), ("b", Value.obj [("c", vnum 2)])]⟩]
      = some [⟨"$[\x22b\x22][\x22c\x22]", vnum 1⟩]
    ∧ locResolve
        (Value.obj [("b\"][\"c", vnum 1), ("b", Value.obj [("c", vnum 2)])])
        "$[\x22b\x22][\x22c\x22]"
      = some (vnum 2)
    ∧ vnum 2 ≠ vnum 1 := by
  refine ⟨rfl, rfl, rfl, rfl, ?_⟩
  intro h
  injection h with h1
  injection h1 with hnan hval
  exact absurd hval (by norm_num)
